import Mathlib

/-!
Verification of the keyword-intersection search engine of the `vscode-search`
extension.  The definitions below are a shallow embedding of the TypeScript
source (`src/search.ts`, `src/utils.ts`, and the webview script): JavaScript
strings are modelled as Lean `String`s (lists of code points; the engine is
locale-naive, ASCII-oriented), maps and sets in insertion order as association
lists, the file system as explicit data passed to each operation, and the
asynchronous worker pool as a sequential batch loop driven by a cancellation
oracle.  Fallible operations return `Option`/`Except`.
-/

set_option maxRecDepth 4000

namespace VsSearch

/-- `MatchPosition` of `utils.ts`: 1-based line/column plus the trimmed line. -/
structure MatchPosition where
  line : Nat
  column : Nat
  lineText : String
deriving DecidableEq, Repr

/-- `KeywordMatch` of `utils.ts`. -/
structure KeywordMatch where
  keyword : String
  positions : List MatchPosition
deriving DecidableEq, Repr

/-- `PreviewSnippet` of `utils.ts`. -/
structure PreviewSnippet where
  startLine : Nat
  endLine : Nat
  content : String
  highlightedContent : String
  matchedKeywords : List String
deriving DecidableEq, Repr

/-- `FilePreview` of `utils.ts`. -/
structure FilePreview where
  snippets : List PreviewSnippet
  totalLines : Nat
  encoding : String
deriving DecidableEq, Repr

/-- `SearchResult` of `utils.ts`.  `lastModified` is the mtime in milliseconds
(the `Date` object wraps exactly this number). -/
structure SearchResult where
  filePath : String
  relativePath : String
  /-- Field `matches` of the source (`matches` is reserved in Lean). -/
  kwMatches : List KeywordMatch
  fileSize : Nat
  preview : Option FilePreview
  lastModified : Nat
  fileType : String
deriving DecidableEq, Repr

/-- The model's view of one on-disk file: the stat data (`size`, `mtime`),
the identification data the engine otherwise obtains from `path`/`vscode`
helpers, and the byte stream delivered as chunks (`fs.createReadStream`).
The full text is the concatenation of the chunks. -/
structure FileData where
  filePath : String
  relativePath : String
  fileType : String
  size : Nat
  mtime : Nat
  chunks : List String
deriving DecidableEq, Repr

/-- The text of a file is its chunk stream joined together. -/
def FileData.content (f : FileData) : String := String.join f.chunks

/-- JavaScript `\w`: ASCII letters, digits and underscore. -/
def isWordChar (c : Char) : Bool := c.isAlphanum || c == '_'

/-- Model of `String.prototype.toLowerCase` (locale-naive per-character
lowercasing; the engine only relies on ASCII behaviour). -/
def lowerStr (s : String) : String := String.mk (s.data.map Char.toLower)

/-- Auxiliary for `indexOf`: the first index (counting from `base`) at which
`needle` occurs in `hay`. -/
def indexOfAux (needle : List Char) : List Char → Nat → Option Nat
  | [], i => if needle.isEmpty then some i else none
  | c :: t, i =>
    if needle.isPrefixOf (c :: t) then some i else indexOfAux needle t (i + 1)

/-- JavaScript `hay.indexOf(needle, start)` (as an `Option` instead of `-1`). -/
def indexOfFrom (needle hay : List Char) (start : Nat) : Option Nat :=
  indexOfAux needle (hay.drop start) start

/-- JavaScript `hay.includes(needle)`. -/
def strContains (hay needle : List Char) : Bool :=
  (indexOfAux needle hay 0).isSome

/-- Is the character at index `i` of `hay` a word character (out of range
counts as a non-word character)? -/
def wordCharAt (hay : List Char) (i : Nat) : Bool :=
  match hay.get? i with
  | some c => isWordChar c
  | none => false

/-- Regex `\b` at position `i`: the word-ness of the characters on the two
sides of the position differs. -/
def boundaryAt (hay : List Char) (i : Nat) : Bool :=
  match i with
  | 0 => wordCharAt hay 0
  | j + 1 => wordCharAt hay j != wordCharAt hay (j + 1)

/-- A whole-word (`\bK\b`) occurrence of `needle` at index `i` of `hay`. -/
def wwMatchAt (needle hay : List Char) (i : Nat) : Bool :=
  needle.isPrefixOf (hay.drop i) && boundaryAt hay i &&
    boundaryAt hay (i + needle.length)

/-- Auxiliary scan for the first whole-word occurrence at index `≥ base`;
`suffix` is walked structurally while `base` counts the absolute index. -/
def wwFindAux (needle hay : List Char) : List Char → Nat → Option Nat
  | [], i => if wwMatchAt needle hay i then some i else none
  | _ :: t, i => if wwMatchAt needle hay i then some i else wwFindAux needle hay t (i + 1)

/-- First whole-word occurrence of `needle` in `hay` at index `≥ start`. -/
def wwFindFrom (needle hay : List Char) (start : Nat) : Option Nat :=
  wwFindAux needle hay (hay.drop start) start

/-- Regex `\bK\b`-containment test (`wordRegex.test(content)`). -/
def wwContains (hay needle : List Char) : Bool :=
  (wwFindAux needle hay hay 0).isSome

/-- Substring-mode scan of one line (`findKeywordPositions`, else-branch):
repeated `indexOf` restarting one character after each hit, so overlapping
occurrences are all reported.  `fuel` only bounds the loop; for a non-empty
needle the indices strictly increase, so `line.length + 1` fuel is exhaustive
(with an empty needle the JavaScript loop does not terminate at all). -/
def subScan (needle line : List Char) (col : Nat) : Nat → List Nat
  | 0 => []
  | fuel + 1 =>
    match indexOfFrom needle line col with
    | none => []
    | some i => i :: subScan needle line (i + 1) fuel

/-- Whole-word-mode scan of one line (`regex.exec` loop): after a hit at `i`
the regex `lastIndex` advances to `i + needle.length`. -/
def wwScan (needle line : List Char) (pos : Nat) : Nat → List Nat
  | 0 => []
  | fuel + 1 =>
    match wwFindFrom needle line pos with
    | none => []
    | some i => i :: wwScan needle line (i + needle.length) fuel

/-- `findKeywordPositions` of `utils.ts`: all match columns of `keyword` on
every line, 1-based, with the trimmed line text.  Case-insensitive matching
lowercases both sides (the `gi` regex over an already-lowercased line is the
same on the engine's locale-naive model). -/
def findKeywordPositions (lines : List String) (keyword : String)
    (caseSensitive : Bool) (wholeWord : Bool) : List MatchPosition :=
  (lines.enum.map (fun p =>
    let line := p.snd
    let hay := if caseSensitive then line.data else (lowerStr line).data
    let ndl := if caseSensitive then keyword.data else (lowerStr keyword).data
    let cols :=
      if wholeWord then wwScan ndl hay 0 (hay.length + 1)
      else subScan ndl hay 0 (hay.length + 1)
    cols.map (fun i => MatchPosition.mk (p.fst + 1) (i + 1) line.trim))).flatten

/-- The per-keyword containment check of `containsAllKeywords`: whole-word
mode tests `\bK\b` against the text, otherwise plain `includes`; when case
sensitivity is off both sides are lowercased first. -/
def hasKeywordIn (content keyword : String) (caseSensitive wholeWord : Bool) : Bool :=
  let hay := if caseSensitive then content.data else (lowerStr content).data
  let ndl := if caseSensitive then keyword.data else (lowerStr keyword).data
  if wholeWord then wwContains hay ndl else strContains hay ndl

/-- Replace-all for `highlightKeywords`: wraps every (case-insensitive,
left-to-right, non-overlapping) occurrence of the lowercased needle in
`pre`/`post`, keeping the original text of the occurrence (`$1`). -/
def markRepl (ndlLower pre post : List Char) : Nat → List Char → List Char
  | 0, hay => hay
  | _ + 1, [] => []
  | fuel + 1, c :: t =>
    if !ndlLower.isEmpty && ndlLower.isPrefixOf ((c :: t).map Char.toLower) then
      pre ++ (c :: t).take ndlLower.length ++ post ++
        markRepl ndlLower pre post fuel ((c :: t).drop ndlLower.length)
    else c :: markRepl ndlLower pre post fuel t

/-- `highlightKeywords` of `utils.ts` (the string-marking helper, not the
editor decoration): every keyword occurrence is wrapped in a
`<mark class="keyword-i%5">` tag; the regex always carries the `i` flag. -/
def highlightKeywordsFn (content : String) (keywords : List String) : String :=
  keywords.enum.foldl (fun acc p =>
    let pre := "<mark class=\"keyword-" ++ toString (p.fst % 5) ++ "\">"
    String.mk (markRepl (lowerStr p.snd).data pre.data "</mark>".data
      (acc.length + 1) acc.data)) content

/-- `getMatchedKeywordsInRange` of `utils.ts`: the keywords having some match
position with `startLine ≤ line ≤ endLine` (`pos.line` is 1-based; the caller
passes 0-based group bounds), in first-hit order without duplicates. -/
def getMatchedKeywordsInRange (allMatches : List KeywordMatch)
    (startLine endLine : Nat) : List String :=
  ((allMatches.filter (fun m =>
    m.positions.any (fun pos => startLine ≤ pos.line && pos.line ≤ endLine))).map
      KeywordMatch.keyword).dedup

/-- One snippet group of `generateFilePreview`: window bounds plus the matched
line numbers it absorbed. -/
structure SnipGroup where
  gStart : Nat
  gEnd : Nat
  matchLines : List Nat
deriving DecidableEq, Repr

/-- The grouping loop of `generateFilePreview`: each matched line expands to a
context window; a window starting at most one line after the current group's
end is merged into it; the loop breaks once `maxSnippets` groups are closed,
and the trailing open group is kept only below the cap. -/
def buildGroups (lineCount contextLines maxSnippets : Nat) :
    List Nat → Option SnipGroup → List SnipGroup → List SnipGroup
  | [], cur, acc =>
    match cur with
    | some c => if acc.length < maxSnippets then acc ++ [c] else acc
    | none => acc
  | ln :: rest, cur, acc =>
    let sStart := ln - contextLines
    let sEnd := min (lineCount - 1) (ln + contextLines)
    match cur with
    | some c =>
      if sStart ≤ c.gEnd + 1 then
        let c2 : SnipGroup := ⟨c.gStart, sEnd, c.matchLines ++ [ln]⟩
        if acc.length ≥ maxSnippets then acc
        else buildGroups lineCount contextLines maxSnippets rest (some c2) acc
      else
        let acc2 := acc ++ [c]
        let c2 : SnipGroup := ⟨sStart, sEnd, [ln]⟩
        if acc2.length ≥ maxSnippets then acc2
        else buildGroups lineCount contextLines maxSnippets rest (some c2) acc2
    | none =>
      let c2 : SnipGroup := ⟨sStart, sEnd, [ln]⟩
      if acc.length ≥ maxSnippets then acc
      else buildGroups lineCount contextLines maxSnippets rest (some c2) acc

/-- `generateFilePreview` of `utils.ts`: sorted deduplicated matched lines,
grouped into at most five context windows; each snippet carries the raw and
highlighted content and the keywords reported in its range. -/
def generateFilePreview (lines : List String) (allMatches : List KeywordMatch)
    (keywords : List String) : FilePreview :=
  let contextLines := 2
  let maxSnippets := 5
  let matchedLines :=
    (List.insertionSort (fun a b => a ≤ b)
      (allMatches.map (fun m => m.positions.map MatchPosition.line)).flatten).dedup
  let groups := buildGroups lines.length contextLines maxSnippets matchedLines none []
  let snippets := groups.map (fun g =>
    let content :=
      String.intercalate "\n" ((lines.drop g.gStart).take (g.gEnd + 1 - g.gStart))
    { startLine := g.gStart + 1
      endLine := g.gEnd + 1
      content := content
      highlightedContent := highlightKeywordsFn content keywords
      matchedKeywords := getMatchedKeywordsInRange allMatches g.gStart g.gEnd
      : PreviewSnippet })
  { snippets := snippets, totalLines := lines.length, encoding := "utf8" }

/-- Auxiliary for `split('\n')`: `cur` holds the current line reversed. -/
def splitLinesAux : List Char → List Char → List (List Char)
  | [], cur => [cur.reverse]
  | c :: t, cur =>
    if c == '\n' then cur.reverse :: splitLinesAux t []
    else splitLinesAux t (c :: cur)

/-- JavaScript `content.split('\n')`. -/
def splitLines (s : String) : List String :=
  (splitLinesAux s.data []).map String.mk

/-- One step of the found-keyword bookkeeping of `containsKeywordsStream`:
`Set.add` modelled as append-if-absent. -/
def addFound (found : List String) (k : String) : List String :=
  if found.contains k then found else found ++ [k]

/-- The chunk loop of `containsKeywordsStream`.  State: the carried-over
`buffer` and the set of keywords seen so far.  After each chunk every
(case-adjusted) keyword is tested against the whole buffer; the loop ends
early once the found-set size equals the length of the RAW keyword list, and
otherwise the buffer is trimmed to its last `maxKwLen` characters whenever it
grows past `2 * maxKwLen`. -/
def streamGo (searchKeywords : List String) (rawCount : Nat) (caseSensitive : Bool)
    (maxKwLen : Nat) : List String → String → List String → Bool
  | [], _, found => found.length == rawCount
  | c :: rest, buf, found =>
    let buffer := buf ++ c
    let searchText := if caseSensitive then buffer else lowerStr buffer
    let found2 := searchKeywords.foldl (fun acc k =>
      if strContains searchText.data k.data then addFound acc k else acc) found
    if found2.length == rawCount then true
    else
      let buffer2 :=
        if buffer.length > maxKwLen * 2 then
          String.mk (buffer.data.drop (buffer.length - maxKwLen))
        else buffer
      streamGo searchKeywords rawCount caseSensitive maxKwLen rest buffer2 found2

/-- `containsKeywordsStream` of `search.ts`: the streaming containment
pre-check used for large files.  Note that the success condition compares the
size of the deduplicating found-SET against the length of the raw keyword
LIST. -/
def containsKeywordsStream (chunks : List String) (keywords : List String)
    (caseSensitive : Bool) : Bool :=
  let searchKeywords := if caseSensitive then keywords else keywords.map lowerStr
  let maxKwLen := keywords.foldl (fun a k => max a k.length) 0
  streamGo searchKeywords keywords.length caseSensitive maxKwLen chunks "" []

/-- The chunk loop of `readFileWithStream`: accumulates chunks (in reverse)
and the running UTF-8 byte total, failing the moment the total exceeds the
ceiling. -/
def readStreamGo (maxBytes : Nat) :
    List String → Nat → List String → Except String (String × List String)
  | [], _, acc =>
    let content := String.join acc.reverse
    Except.ok (content, splitLines content)
  | c :: rest, total, acc =>
    let total2 := total + c.utf8ByteSize
    if total2 > maxBytes then Except.error "file too large"
    else readStreamGo maxBytes rest total2 (c :: acc)

/-- `readFileWithStream` of `search.ts`: the Streaming Reader.  Produces the
full text and its newline-split line array, or fails with a size error before
consuming the rest of the stream. -/
def readFileWithStream (chunks : List String) (maxBytes : Nat) :
    Except String (String × List String) :=
  readStreamGo maxBytes chunks 0 []

/-- The 100KB large-file threshold of `containsAllKeywords`. -/
def largeFileThreshold : Nat := 100 * 1024

/-- The keyword loop of `containsAllKeywords`: bail out the moment a keyword
is not contained; a keyword with a positive containment test but no per-line
positions contributes no entry (the final length check then fails). -/
def collectMatches (content : String) (lines : List String)
    (caseSensitive wholeWord : Bool) : List String → Option (List KeywordMatch)
  | [] => some []
  | k :: rest =>
    if hasKeywordIn content k caseSensitive wholeWord then
      let positions := findKeywordPositions lines k caseSensitive wholeWord
      match collectMatches content lines caseSensitive wholeWord rest with
      | none => none
      | some ms =>
        some (if positions.isEmpty then ms else ⟨k, positions⟩ :: ms)
    else none

/-- The tail of `containsAllKeywords` after the size and pre-check gates:
read the stream, match every keyword, and build the `SearchResult`. -/
def containsAllKeywordsRead (file : FileData) (keywords : List String)
    (caseSensitive wholeWord : Bool) (maxBytes : Nat) : Option SearchResult :=
  match readFileWithStream file.chunks maxBytes with
  | Except.error _ => none
  | Except.ok (content, lines) =>
    match collectMatches content lines caseSensitive wholeWord keywords with
    | none => none
    | some allMatches =>
      if allMatches.length == keywords.length then
        some { filePath := file.filePath
               relativePath := file.relativePath
               kwMatches := allMatches
               fileSize := file.size
               preview := some (generateFilePreview lines allMatches keywords)
               lastModified := file.mtime
               fileType := file.fileType }
      else none

/-- `containsAllKeywords` of `utils.ts`: the per-file matching pipeline.
A file over the byte ceiling yields `null`; a file over the 100KB threshold
must first pass the streaming containment pre-check; then the file is read in
full and every keyword matched. -/
def containsAllKeywords (file : FileData) (keywords : List String)
    (caseSensitive wholeWord : Bool) (maxBytes : Nat) : Option SearchResult :=
  if file.size > maxBytes then none
  else if file.size > largeFileThreshold ∧
      ¬ containsKeywordsStream file.chunks keywords caseSensitive then none
  else containsAllKeywordsRead file keywords caseSensitive wholeWord maxBytes

/-- The uncancelled scan over a candidate list (`searchFilesInParallel` when
no cancellation fires): every file through `containsAllKeywords`, non-null
results kept.  The worker pool appends batch results in completion order; the
caller's final sort makes that order irrelevant, and this model fixes queue
order. -/
def scanFilesNoCancel (corpus : List FileData) (keywords : List String)
    (caseSensitive wholeWord : Bool) (maxBytes : Nat) : List SearchResult :=
  corpus.filterMap (fun f => containsAllKeywords f keywords caseSensitive wholeWord maxBytes)

/-- Lexicographic code-point comparison of two character lists. -/
def charListLe : List Char → List Char → Bool
  | [], _ => true
  | _ :: _, [] => false
  | a :: as, b :: bs => if a == b then charListLe as bs else decide (a < b)

/-- The comparator of `results.sort((a, b) => a.relativePath.localeCompare(b.relativePath))`,
modelled as code-point order on the relative path (`localeCompare` agrees
with it on the ASCII, same-case paths the engine works with). -/
def relLE (a b : SearchResult) : Prop :=
  charListLe a.relativePath.data b.relativePath.data = true

instance : DecidableRel relLE := fun a b =>
  inferInstanceAs (Decidable (charListLe a.relativePath.data b.relativePath.data = true))

/-- The final sort by relative path (JavaScript `Array.prototype.sort` is a
stable sort; any stable sort under the same total preorder produces the same
list). -/
def sortResults (rs : List SearchResult) : List SearchResult :=
  List.insertionSort relLE rs

/-- Modelled from the spec: the external line-search subprocess
(`searchWithRipgrep` shells out to it; the binary itself is an external
collaborator specified only at its interface boundary, sec. 6 of the spec).
Per the spec it prints exactly the paths of the candidate files that contain
the keyword, honoring the case-sensitivity flag; the include/ignore globs are
modelled by letting `corpus` be the shared candidate universe both engines
draw from, and output order is the enumeration order. -/
def ripgrepFiles (corpus : List FileData) (keyword : String) (caseSensitive : Bool) :
    List String :=
  (corpus.filter (fun f =>
    hasKeywordIn f.content keyword caseSensitive false)).map FileData.filePath

/-- `tryRipgrepSearch` of `search.ts` on a run where the utility is available
and every per-keyword invocation succeeds: one subprocess query per keyword
(the keyword→files Map dedups repeated keywords, first-insertion order), the
per-keyword path sets intersected, and each surviving path re-matched in full
through `generateDetailedResult` (ignore re-check plus `containsAllKeywords`).
`ignored` models `shouldIgnoreFile` against the configured ignore globs. -/
def tryRipgrepSearch (corpus : List FileData) (ignored : String → Bool)
    (keywords : List String) (caseSensitive wholeWord : Bool) (maxBytes : Nat) :
    List SearchResult :=
  let dedupKws := keywords.dedup
  match dedupKws with
  | [] => []
  | k0 :: restKws =>
    let inter := restKws.foldl (fun acc k =>
      acc.filter (fun p => (ripgrepFiles corpus k caseSensitive).contains p))
      (ripgrepFiles corpus k0 caseSensitive)
    inter.filterMap (fun p =>
      match corpus.find? (fun f => f.filePath == p) with
      | none => none
      | some f =>
        if ignored f.filePath then none
        else containsAllKeywords f keywords caseSensitive wholeWord maxBytes)

/-- `searchKeywordsIntersection` of `search.ts` on a completed run: when the
fast path answers, its result list is returned as is; only the fallback scan
is followed by the explicit sort by relative path. -/
def searchKeywordsIntersection (rgAvailable : Bool) (corpus : List FileData)
    (ignored : String → Bool) (keywords : List String)
    (caseSensitive wholeWord : Bool) (maxBytes : Nat) : List SearchResult :=
  if rgAvailable then
    tryRipgrepSearch corpus ignored keywords caseSensitive wholeWord maxBytes
  else
    sortResults (scanFilesNoCancel corpus keywords caseSensitive wholeWord maxBytes)

/-- The batch loop of `searchFilesInParallel` under cancellation.  The shared
queue is drained batch by batch (`splice` hands out consecutive slices, so
the processed files always form a prefix of the queue); `cancel` is the
cancellation token polled before each batch is taken, indexed by the number
of batches taken so far; a batch that has started is processed in full.  The
worker-pool interleaving only permutes how completed batches append their
results, which none of the stated properties depend on. -/
def scanBatches (keywords : List String) (caseSensitive wholeWord : Bool)
    (maxBytes batchSize : Nat) (cancel : Nat → Bool) :
    List FileData → Nat → List SearchResult → List SearchResult
  | [], _, acc => acc
  | q :: qs, step, acc =>
    if cancel step then acc
    else
      let batch := (q :: qs).take batchSize
      if batchSize = 0 then acc
      else
        let acc2 := acc ++ batch.filterMap
          (fun f => containsAllKeywords f keywords caseSensitive wholeWord maxBytes)
        scanBatches keywords caseSensitive wholeWord maxBytes batchSize cancel
          ((q :: qs).drop batchSize) (step + 1) acc2
termination_by qfiles => qfiles.length
decreasing_by
  simp only [List.length_drop, List.length_cons]
  omega

/-- `searchFilesInParallel` of `search.ts` under a cancellation oracle. -/
def searchFilesInParallel (files : List FileData) (keywords : List String)
    (caseSensitive wholeWord : Bool) (maxBytes batchSize : Nat)
    (cancel : Nat → Bool) : List SearchResult :=
  scanBatches keywords caseSensitive wholeWord maxBytes batchSize cancel files 0 []

/-- `FileIndex` of `utils.ts`; the `words` Set and the persisted word array
are both modelled as the insertion-ordered list. -/
structure FileIndex where
  filePath : String
  relativePath : String
  lastModified : Nat
  fileSize : Nat
  fileType : String
  words : List String
  lines : List String
  encoding : String
deriving DecidableEq, Repr

/-- `SearchIndex` of `utils.ts`; the two Maps are modelled as
insertion-ordered association lists. -/
structure SearchIndex where
  version : String
  createdAt : Nat
  updatedAt : Nat
  files : List (String × FileIndex)
  wordToFiles : List (String × List String)
  totalFiles : Nat
  totalWords : Nat
deriving DecidableEq, Repr

/-- `Map.get` on an insertion-ordered association list. -/
def lookupMap {α : Type} (m : List (String × α)) (k : String) : Option α :=
  (m.find? (fun p => p.fst == k)).map Prod.snd

/-- Token extraction behind `extractWords`: the regex
`/\b[a-zA-Z_][a-zA-Z0-9_]*\b/g` matches exactly the maximal word-character
runs whose first character is a letter or underscore (a run starting with a
digit has no word boundary inside it and is skipped whole). -/
def extractTokens : List Char → List (List Char)
  | [] => []
  | c :: t =>
    if isWordChar c then
      let run := c :: t.takeWhile isWordChar
      let rest := t.dropWhile isWordChar
      (if c.isAlpha || c == '_' then [run] else []) ++ extractTokens rest
    else extractTokens t
termination_by cs => cs.length
decreasing_by
  · simp only [List.length_cons]
    have h := ((List.dropWhile_suffix (l := t) isWordChar).sublist).length_le
    omega
  · simp

/-- `extractWords` of `search.ts`: lowercased tokens of length at least 2,
deduplicated in first-occurrence order. -/
def extractWords (content : String) : List String :=
  (((extractTokens content.data).map
    (fun run => String.mk (run.map Char.toLower))).filter
      (fun w => w.length ≥ 2)).dedup

/-- The keyword loop of `findKeywordMatches` (`search.ts`, index path): every
keyword must have positions in the cached line array; note the positions are
computed WITHOUT the whole-word flag (the parameter defaults to false). -/
def collectIdxMatches (lines : List String) (caseSensitive : Bool) :
    List String → Option (List KeywordMatch)
  | [] => some []
  | k :: rest =>
    let positions := findKeywordPositions lines k caseSensitive false
    if positions.isEmpty then none
    else
      match collectIdxMatches lines caseSensitive rest with
      | none => none
      | some ms => some (⟨k, positions⟩ :: ms)

/-- `findKeywordMatches` of `search.ts`: exact matching against the indexed
file's cached lines, building the final `SearchResult` with preview. -/
def findKeywordMatchesIdx (fi : FileIndex) (keywords : List String)
    (caseSensitive : Bool) : Option SearchResult :=
  match collectIdxMatches fi.lines caseSensitive keywords with
  | none => none
  | some allMatches =>
    if allMatches.length == keywords.length then
      some { filePath := fi.filePath
             relativePath := fi.relativePath
             kwMatches := allMatches
             fileSize := fi.fileSize
             preview := some (generateFilePreview fi.lines allMatches keywords)
             lastModified := fi.lastModified
             fileType := fi.fileType }
    else none

/-- The candidate-intersection loop of `searchWithIndex`: per keyword, the
inverted map's file set; `none` models every early `return []` (a keyword
with no or an empty set, or an empty running intersection).  The state is
`none` before the first keyword (`candidateFiles = null`). -/
def interCandidates (index : SearchIndex) :
    List String → Option (List String) → Option (List String)
  | [], st => st
  | k :: rest, st =>
    match lookupMap index.wordToFiles k with
    | none => none
    | some files =>
      if files.isEmpty then none
      else
        let cand := match st with
          | none => files
          | some cur => cur.filter (fun f => files.contains f)
        if cand.isEmpty then none
        else interCandidates index rest (some cand)

/-- `searchWithIndex` of `search.ts`: lowercase the keywords unless
case-sensitive, intersect the inverted-map candidate sets, re-validate each
candidate's on-disk mtime (`fsMtime`, `none` modelling a failing `stat`)
against the index, re-match against the cached lines, and sort. -/
def searchWithIndex (index : SearchIndex) (fsMtime : String → Option Nat)
    (keywords : List String) (caseSensitive : Bool) : List SearchResult :=
  let searchKeywords := if caseSensitive then keywords else keywords.map lowerStr
  let cands := match interCandidates index searchKeywords none with
    | none => []
    | some c => c
  let results := cands.filterMap (fun p =>
    match lookupMap index.files p with
    | none => none
    | some fi =>
      match fsMtime p with
      | none => none
      | some mt =>
        if mt = fi.lastModified then findKeywordMatchesIdx fi keywords caseSensitive
        else none)
  sortResults results

/-- `isIndexOutdated` of `search.ts`: stale when there is no index, the
candidate count differs from `totalFiles`, some candidate is missing from the
file map, its `stat` fails, or its on-disk mtime differs from the stored one.
`current` is the deduplicated candidate path list. -/
def isIndexOutdated (index : Option SearchIndex) (current : List String)
    (fsMtime : String → Option Nat) : Bool :=
  match index with
  | none => true
  | some idx =>
    if current.length = idx.totalFiles then
      current.any (fun p =>
        match lookupMap idx.files p with
        | none => true
        | some fi =>
          match fsMtime p with
          | none => true
          | some mt => mt != fi.lastModified)
    else true

/-- The JSON-like document tree `saveIndex` serializes to and `loadIndex`
parses from (`JSON.stringify`/`JSON.parse` round-trip the tree unchanged for
these shapes, object keys in insertion order). -/
inductive JVal where
  | jstr : String → JVal
  | jnum : Nat → JVal
  | jarr : List JVal → JVal
  | jobj : List (String × JVal) → JVal

/-- The `{...fileIndex, words: Array.from(fileIndex.words)}` conversion of
`saveIndex`. -/
def serializeFileIndex (fi : FileIndex) : JVal :=
  JVal.jobj
    [("filePath", JVal.jstr fi.filePath),
     ("relativePath", JVal.jstr fi.relativePath),
     ("lastModified", JVal.jnum fi.lastModified),
     ("fileSize", JVal.jnum fi.fileSize),
     ("fileType", JVal.jstr fi.fileType),
     ("words", JVal.jarr (fi.words.map JVal.jstr)),
     ("lines", JVal.jarr (fi.lines.map JVal.jstr)),
     ("encoding", JVal.jstr fi.encoding)]

/-- `IndexManager.saveIndex`: the serializable document written to disk
(Maps via `Object.fromEntries`, Sets via `Array.from`). -/
def saveIndex (index : SearchIndex) : JVal :=
  JVal.jobj
    [("version", JVal.jstr index.version),
     ("createdAt", JVal.jnum index.createdAt),
     ("updatedAt", JVal.jnum index.updatedAt),
     ("totalFiles", JVal.jnum index.totalFiles),
     ("totalWords", JVal.jnum index.totalWords),
     ("files", JVal.jobj (index.files.map (fun e => (e.fst, serializeFileIndex e.snd)))),
     ("wordToFiles", JVal.jobj (index.wordToFiles.map
        (fun e => (e.fst, JVal.jarr (e.snd.map JVal.jstr)))))]

/-- Field access on a parsed JSON object. -/
def jGet (j : JVal) (k : String) : Option JVal :=
  match j with
  | JVal.jobj kvs => lookupMap kvs k
  | _ => none

/-- Read a parsed JSON string field. -/
def jAsStr : Option JVal → Option String
  | some (JVal.jstr s) => some s
  | _ => none

/-- Read a parsed JSON number field. -/
def jAsNum : Option JVal → Option Nat
  | some (JVal.jnum n) => some n
  | _ => none

/-- Parse a JSON array of strings element by element (the `new Set(...)` /
assignment loops of `loadIndex` walk the plain arrays). -/
def parseStrList : List JVal → Option (List String)
  | [] => some []
  | v :: t =>
    match v with
    | JVal.jstr s => (parseStrList t).map (fun r => s :: r)
    | _ => none

/-- Read a parsed JSON array of strings. -/
def jAsStrArr : Option JVal → Option (List String)
  | some (JVal.jarr vs) => parseStrList vs
  | _ => none

/-- The per-file rebuild loop of `loadIndex` (`new Set(data.words)` etc.). -/
def parseFileIndex (j : JVal) : Option FileIndex := do
  let filePath ← jAsStr (jGet j "filePath")
  let relativePath ← jAsStr (jGet j "relativePath")
  let lastModified ← jAsNum (jGet j "lastModified")
  let fileSize ← jAsNum (jGet j "fileSize")
  let fileType ← jAsStr (jGet j "fileType")
  let words ← jAsStrArr (jGet j "words")
  let lines ← jAsStrArr (jGet j "lines")
  let encoding ← jAsStr (jGet j "encoding")
  pure { filePath := filePath, relativePath := relativePath,
         lastModified := lastModified, fileSize := fileSize,
         fileType := fileType, words := words, lines := lines,
         encoding := encoding }

/-- The `Object.entries(parsed.files)` rebuild loop of `loadIndex`. -/
def parseFilesEntries : List (String × JVal) → Option (List (String × FileIndex))
  | [] => some []
  | e :: t =>
    match parseFileIndex e.snd with
    | none => none
    | some fi => (parseFilesEntries t).map (fun r => (e.fst, fi) :: r)

/-- The `Object.entries(parsed.wordToFiles)` rebuild loop of `loadIndex`. -/
def parseW2FEntries : List (String × JVal) → Option (List (String × List String))
  | [] => some []
  | e :: t =>
    match jAsStrArr (some e.snd) with
    | none => none
    | some fs => (parseW2FEntries t).map (fun r => (e.fst, fs) :: r)

/-- `IndexManager.loadIndex`: rebuild the Maps and Sets from the persisted
document; any malformed document lands in the catch branch and yields `null`
(here `none`). -/
def loadIndex (j : JVal) : Option SearchIndex := do
  let version ← jAsStr (jGet j "version")
  let createdAt ← jAsNum (jGet j "createdAt")
  let updatedAt ← jAsNum (jGet j "updatedAt")
  let totalFiles ← jAsNum (jGet j "totalFiles")
  let totalWords ← jAsNum (jGet j "totalWords")
  let filesObj ← match jGet j "files" with
    | some (JVal.jobj kvs) => some kvs
    | _ => none
  let files ← parseFilesEntries filesObj
  let w2fObj ← match jGet j "wordToFiles" with
    | some (JVal.jobj kvs) => some kvs
    | _ => none
  let wordToFiles ← parseW2FEntries w2fObj
  pure { version := version, createdAt := createdAt, updatedAt := updatedAt,
         files := files, wordToFiles := wordToFiles,
         totalFiles := totalFiles, totalWords := totalWords }

/-- The webview's session `searchCache` (`media/main.js`). -/
structure SearchCache where
  keywords : List String
  results : List SearchResult
  timestamp : Nat
deriving Repr

/-- The five-minute cache TTL in milliseconds. -/
def cacheTTL : Nat := 5 * 60 * 1000

/-- `checkSearchCache` of the webview script: the cache answers only when it
is non-empty, younger than the TTL, and the new keyword list is a strict
superset of the cached one; it then hands back the cached results and the
newly-added keywords. -/
def checkSearchCache (cache : SearchCache) (now : Nat) (keywords : List String) :
    Option (List SearchResult × List String) :=
  if cache.keywords.isEmpty || cache.results.isEmpty then none
  else if now - cache.timestamp > cacheTTL then none
  else if cache.keywords.length < keywords.length ∧
      ∀ k ∈ cache.keywords, k ∈ keywords then
    some (cache.results, keywords.filter (fun k => !cache.keywords.contains k))
  else none

/-- The filtering text of the incremental refinement: the cached result's
relative path plus its cached preview snippet contents. -/
def cacheSearchText (r : SearchResult) : String :=
  r.relativePath ++ " " ++
    (match r.preview with
     | none => ""
     | some p => String.intercalate " " (p.snippets.map PreviewSnippet.content))

/-- The client-side filter of `handleIncrementalSearch`: keep a cached result
when EVERY keyword of `keywords` (the webview passes the full new query, not
just the added keywords) is contained in its path-plus-preview text under the
current case/whole-word checkboxes. -/
def handleIncrementalSearch (cachedResults : List SearchResult)
    (keywords : List String) (caseSensitive wholeWord : Bool) : List SearchResult :=
  cachedResults.filter (fun r =>
    keywords.all (fun k => hasKeywordIn (cacheSearchText r) k caseSensitive wholeWord))

/-! ## Supporting lemmas -/

/-- `addFound` keeps the found-set duplicate-free and inside the keyword
universe. -/
theorem addFound_inv (acc : List String) (k : String) (sk : List String)
    (hnd : acc.Nodup) (hsub : ∀ x ∈ acc, x ∈ sk) (hk : k ∈ sk) :
    (addFound acc k).Nodup ∧ ∀ x ∈ addFound acc k, x ∈ sk := by
  by_cases hm : k ∈ acc
  · have he : addFound acc k = acc := by simp [addFound, hm]
    rw [he]
    exact ⟨hnd, hsub⟩
  · have he : addFound acc k = acc ++ [k] := by simp [addFound, hm]
    rw [he]
    refine ⟨by simp [List.nodup_append, hnd, hm], ?_⟩
    intro x hx
    rcases List.mem_append.mp hx with h1 | h1
    · exact hsub x h1
    · simp only [List.mem_cons, List.not_mem_nil, or_false] at h1
      exact h1 ▸ hk

/-- The per-chunk fold of `streamGo` preserves the found-set invariant. -/
theorem foldl_found_inv (txt : String) (sk : List String) :
    ∀ (ks acc : List String), acc.Nodup → (∀ x ∈ acc, x ∈ sk) →
    (∀ k ∈ ks, k ∈ sk) →
    (ks.foldl (fun a k => if strContains txt.data k.data then addFound a k else a) acc).Nodup ∧
    ∀ x ∈ ks.foldl (fun a k => if strContains txt.data k.data then addFound a k else a) acc,
      x ∈ sk := by
  intro ks
  induction ks with
  | nil => intro acc h1 h2 _; exact ⟨h1, h2⟩
  | cons k rest ih =>
    intro acc h1 h2 h3
    simp only [List.foldl_cons]
    by_cases hc : strContains txt.data k.data
    · simp only [hc, if_true]
      have hk : k ∈ sk := h3 k (List.mem_cons_self ..)
      obtain ⟨n1, n2⟩ := addFound_inv acc k sk h1 h2 hk
      exact ih (addFound acc k) n1 n2 (fun x hx => h3 x (List.mem_cons_of_mem _ hx))
    · simp only [hc, Bool.false_eq_true, if_false]
      exact ih acc h1 h2 (fun x hx => h3 x (List.mem_cons_of_mem _ hx))

/-- A duplicate-free sub-collection of `sk` can never reach a size beyond the
number of distinct elements of `sk`. -/
theorem nodup_length_le_card (found sk : List String) (hnd : found.Nodup)
    (hsub : ∀ x ∈ found, x ∈ sk) : found.length ≤ sk.toFinset.card := by
  calc found.length = found.toFinset.card := (List.toFinset_card_of_nodup hnd).symm
    _ ≤ sk.toFinset.card := by
        apply Finset.card_le_card
        intro x hx
        simp only [List.mem_toFinset] at hx ⊢
        exact hsub x hx

/-- `streamGo` can never succeed when the raw keyword count exceeds the
number of distinct (case-adjusted) keywords: the found-SET size is compared
against the raw LIST length. -/
theorem streamGo_never_true (sk : List String) (raw : Nat) (cs : Bool) (ml : Nat)
    (hraw : sk.toFinset.card < raw) :
    ∀ (chunks : List String) (buf : String) (found : List String),
    found.Nodup → (∀ x ∈ found, x ∈ sk) →
    streamGo sk raw cs ml chunks buf found = false := by
  intro chunks
  induction chunks with
  | nil =>
    intro buf found hnd hsub
    have hlt : found.length < raw :=
      Nat.lt_of_le_of_lt (nodup_length_le_card found sk hnd hsub) hraw
    simp only [streamGo, beq_eq_false_iff_ne]
    omega
  | cons c rest ih =>
    intro buf found hnd hsub
    simp only [streamGo]
    obtain ⟨n1, n2⟩ :=
      foldl_found_inv (if cs = true then buf ++ c else lowerStr (buf ++ c)) sk sk
        found hnd hsub (fun k hk => hk)
    have hlt2 := Nat.lt_of_le_of_lt (nodup_length_le_card _ sk n1 n2) hraw
    rw [if_neg (by simp only [beq_iff_eq]; omega)]
    exact ih _ _ n1 n2

/-! ## C1 -/

/-- C1 (code bug): `containsAllKeywords` must return a `SearchResult` for a
file containing every keyword, including large (>100KB) files and keyword
lists with duplicates.  Instead, for EVERY file over the 100KB streaming
threshold (and within the size ceiling), the duplicated keyword list
`["cat", "cat"]` yields `null` regardless of the file's content: the
streaming pre-check compares the size of its deduplicating found-set (at
most 1 here) against the raw list length (2) and can never succeed. -/
theorem containsAllKeywords_duplicate_keywords_large_file_bug
    (size maxB mt : Nat) (chunks : List String) (fp rp ft : String)
    (hlarge : largeFileThreshold < size) (hmax : size ≤ maxB) :
    containsAllKeywords ⟨fp, rp, ft, size, mt, chunks⟩ ["cat", "cat"] false false maxB
      = none := by
  have hstream : containsKeywordsStream chunks ["cat", "cat"] false = false := by
    unfold containsKeywordsStream
    apply streamGo_never_true
    · decide
    · exact List.nodup_nil
    · intro x hx; simp at hx
  unfold containsAllKeywords
  rw [if_neg (by change ¬ size > maxB; omega)]
  rw [if_pos ⟨by change largeFileThreshold < size; omega, by simp [hstream]⟩]

/-- Witness for C1: a concrete instantiation; the same 7-byte content below
the threshold matches, over the threshold the same pipeline rejects it. -/
theorem containsAllKeywords_duplicate_keywords_large_file_bug_witness :
    largeFileThreshold < 102401 ∧ 102401 ≤ 1048576 ∧
    containsAllKeywords ⟨"/w/a.txt", "a.txt", ".txt", 102401, 5, ["cat cat"]⟩
      ["cat", "cat"] false false 1048576 = none ∧
    (containsAllKeywords ⟨"/w/a.txt", "a.txt", ".txt", 7, 5, ["cat cat"]⟩
      ["cat", "cat"] false false 1048576).isSome = true :=
  ⟨by decide, by decide,
   containsAllKeywords_duplicate_keywords_large_file_bug 102401 1048576 5
     ["cat cat"] "/w/a.txt" "a.txt" ".txt" (by decide) (by decide),
   by decide⟩

/-! ## C5 -/

/-- C5 (code bug): each snippet's `matchedKeywords` must list exactly the
keywords with a match inside the snippet's reported 1-based
`startLine..endLine` range.  On a one-line file matching `"cat"`, the single
snippet reports the range 1..1 and the keyword's only match is at line 1,
yet `matchedKeywords` is empty: `getMatchedKeywordsInRange` is called with
the 0-based group bounds while `pos.line` is 1-based. -/
theorem getMatchedKeywordsInRange_off_by_one_bug :
    (generateFilePreview ["cat"] [⟨"cat", [⟨1, 1, "cat"⟩]⟩] ["cat"]).snippets.map
      (fun s => (s.startLine, s.endLine, s.matchedKeywords)) = [(1, 1, [])] ∧
    ∀ m ∈ [KeywordMatch.mk "cat" [⟨1, 1, "cat"⟩]],
      m.positions.any (fun pos => 1 ≤ pos.line && pos.line ≤ 1) = true := by
  constructor
  · rfl
  · decide

/-- The streaming reader fails as soon as the running byte total passes the
ceiling; the running total never exceeds the ceiling on entry. -/
theorem readStreamGo_exceeds (maxB : Nat) :
    ∀ (chunks : List String) (total : Nat) (acc : List String),
    total ≤ maxB → maxB < total + (chunks.map String.utf8ByteSize).sum →
    readStreamGo maxB chunks total acc = Except.error "file too large" := by
  intro chunks
  induction chunks with
  | nil =>
    intro total acc h1 h2
    simp only [List.map_nil, List.sum_nil] at h2
    omega
  | cons c rest ih =>
    intro total acc h1 h2
    simp only [readStreamGo]
    by_cases h : total + c.utf8ByteSize > maxB
    · rw [if_pos h]
    · rw [if_neg h]
      apply ih
      · omega
      · simp only [List.map_cons, List.sum_cons] at h2
        omega

/-! ## C7 -/

/-- C7 (confirmed): a file whose stat size exceeds the configured byte
ceiling is rejected by the matching pipeline regardless of content, and the
streaming reader fails (rather than returning content) whenever the total
byte size of the stream exceeds the ceiling. -/
theorem oversize_file_rejected :
    (∀ (file : FileData) (keywords : List String) (cs ww : Bool) (maxB : Nat),
      file.size > maxB →
      containsAllKeywords file keywords cs ww maxB = none) ∧
    (∀ (chunks : List String) (maxB : Nat),
      maxB < (chunks.map String.utf8ByteSize).sum →
      readFileWithStream chunks maxB = Except.error "file too large") := by
  constructor
  · intro file keywords cs ww maxB h
    unfold containsAllKeywords
    rw [if_pos h]
  · intro chunks maxB h
    unfold readFileWithStream
    exact readStreamGo_exceeds maxB chunks 0 [] (Nat.zero_le _) (by omega)

/-- Witness for C7: the spec's scenario, a 2MB file against a 1MB ceiling,
and a three-byte stream against a two-byte ceiling. -/
theorem oversize_file_rejected_witness :
    (2097152 > 1048576 ∧
      containsAllKeywords ⟨"/w/big.txt", "big.txt", ".txt", 2097152, 0, ["alpha"]⟩
        ["alpha"] false false 1048576 = none) ∧
    (2 < ((["abc"].map String.utf8ByteSize)).sum ∧
      readFileWithStream ["abc"] 2 = Except.error "file too large") :=
  ⟨⟨by decide,
    oversize_file_rejected.1 ⟨"/w/big.txt", "big.txt", ".txt", 2097152, 0, ["alpha"]⟩
      ["alpha"] false false 1048576 (by decide)⟩,
   ⟨by decide, oversize_file_rejected.2 ["abc"] 2 (by decide)⟩⟩

/-! ## C6 -/

/-- A cached result for the C6 counterexample: its preview text contains
`gamma` but not the cached keyword `beta` (reachable when the five-snippet
cap drops the keyword's matched lines from the preview). -/
def c6CachedResult : SearchResult :=
  { filePath := "/w/f.js"
    relativePath := "a.js"
    kwMatches := []
    fileSize := 9
    preview := some { snippets := [⟨1, 1, "gamma line", "gamma line", ["gamma"]⟩]
                      totalLines := 1
                      encoding := "utf8" }
    lastModified := 0
    fileType := ".js" }

/-- C6 (counterexample): with cached keywords `["beta"]` and the new query
`["beta", "gamma"]`, the cache check accepts and reports `["gamma"]` as the
newly-added keywords, but the refinement filters the cached result against
ALL keywords of the query: the cached keyword `beta` is re-tested against the
path-plus-preview text, fails there, and the result is dropped, whereas
filtering against only the newly-added keywords keeps it. -/
theorem handleIncrementalSearch_filters_all_keywords :
    checkSearchCache ⟨["beta"], [c6CachedResult], 0⟩ 1000 ["beta", "gamma"]
      = some ([c6CachedResult], ["gamma"]) ∧
    handleIncrementalSearch [c6CachedResult] ["beta", "gamma"] false false = [] ∧
    handleIncrementalSearch [c6CachedResult] ["gamma"] false false = [c6CachedResult] := by
  refine ⟨?_, ?_, ?_⟩ <;> rfl

/-- C6 (amended): when the cache check accepts, the query is answered by
filtering the cached results against ALL keywords of the new query (cached
keywords are re-tested against path-plus-preview text as well, so a result
whose cached keyword evidence lies outside its preview can be dropped); the
refined result list is always a sublist (hence a subset) of the cached one. -/
theorem handleIncrementalSearch_refines_cache
    (cache : SearchCache) (now : Nat) (query : List String) (cs ww : Bool)
    (res : List SearchResult) (newKw : List String)
    (hC : checkSearchCache cache now query = some (res, newKw)) :
    res = cache.results ∧
    newKw = query.filter (fun k => !cache.keywords.contains k) ∧
    cache.keywords.length < query.length ∧
    (∀ k ∈ cache.keywords, k ∈ query) ∧
    now - cache.timestamp ≤ cacheTTL ∧
    (handleIncrementalSearch res query cs ww).Sublist res := by
  unfold checkSearchCache at hC
  by_cases h1 : cache.keywords.isEmpty || cache.results.isEmpty
  · rw [if_pos h1] at hC; exact absurd hC (by simp)
  · rw [if_neg h1] at hC
    by_cases h2 : now - cache.timestamp > cacheTTL
    · rw [if_pos h2] at hC; exact absurd hC (by simp)
    · rw [if_neg h2] at hC
      by_cases h3 : cache.keywords.length < query.length ∧ ∀ k ∈ cache.keywords, k ∈ query
      · rw [if_pos h3] at hC
        injection hC with hC
        injection hC with hres hkw
        refine ⟨hres.symm, hkw.symm, h3.1, h3.2, by omega, ?_⟩
        exact hres ▸ List.filter_sublist _
      · rw [if_neg h3] at hC; exact absurd hC (by simp)

/-- Witness for C6's amended theorem at the counterexample's cache state. -/
theorem handleIncrementalSearch_refines_cache_witness :
    checkSearchCache ⟨["beta"], [c6CachedResult], 0⟩ 1000 ["beta", "gamma"]
      = some ([c6CachedResult], ["gamma"]) ∧
    ([c6CachedResult] = (SearchCache.mk ["beta"] [c6CachedResult] 0).results ∧
      ["gamma"] = ["beta", "gamma"].filter
        (fun k => !(["beta"].contains k)) ∧
      (List.length ["beta"] < List.length ["beta", "gamma"]) ∧
      (∀ k ∈ ["beta"], k ∈ ["beta", "gamma"]) ∧
      1000 - 0 ≤ cacheTTL ∧
      (handleIncrementalSearch [c6CachedResult] ["beta", "gamma"] false false).Sublist
        [c6CachedResult]) :=
  ⟨by rfl,
   handleIncrementalSearch_refines_cache ⟨["beta"], [c6CachedResult], 0⟩ 1000
     ["beta", "gamma"] false false [c6CachedResult] ["gamma"] (by rfl)⟩

/-! ## C4 -/

/-- Boolean check that a result list is sorted ascending by relative path. -/
def resultsSortedByRel : List SearchResult → Bool
  | [] => true
  | [_] => true
  | a :: b :: t => decide (relLE a b) && resultsSortedByRel (b :: t)

/-- First file of the C4 counterexample corpus (later relative path, earlier
enumeration position). -/
def c4FileB : FileData := ⟨"/w/b.txt", "b.txt", ".txt", 1, 0, ["x"]⟩

/-- Second file of the C4 counterexample corpus. -/
def c4FileA : FileData := ⟨"/w/a.txt", "a.txt", ".txt", 1, 0, ["x"]⟩

/-- C4 (counterexample): a completed fast-path search is returned as the
candidate-intersection list without the final sort: with the corpus
enumerated as `[b.txt, a.txt]`, the top-level search answers in that order,
which is not ascending by relative path — while the very same query through
the fallback scan path is sorted. -/
theorem fast_path_result_unsorted :
    (searchKeywordsIntersection true [c4FileB, c4FileA] (fun _ => false)
      ["x"] false false 1048576).map SearchResult.relativePath = ["b.txt", "a.txt"] ∧
    resultsSortedByRel (searchKeywordsIntersection true [c4FileB, c4FileA]
      (fun _ => false) ["x"] false false 1048576) = false ∧
    (searchKeywordsIntersection false [c4FileB, c4FileA] (fun _ => false)
      ["x"] false false 1048576).map SearchResult.relativePath = ["a.txt", "b.txt"] := by
  refine ⟨?_, ?_, ?_⟩ <;> rfl

/-- `charListLe` is total. -/
theorem charListLe_total : ∀ (as bs : List Char),
    charListLe as bs = true ∨ charListLe bs as = true := by
  intro as
  induction as with
  | nil => intro bs; exact Or.inl rfl
  | cons a as2 ih =>
    intro bs
    match bs with
    | [] => exact Or.inr rfl
    | b :: bs2 =>
      by_cases h : a = b
      · subst h
        simp only [charListLe, beq_self_eq_true, if_true]
        exact ih bs2
      · have hne : (a == b) = false := beq_eq_false_iff_ne.mpr h
        have hne2 : (b == a) = false := beq_eq_false_iff_ne.mpr (Ne.symm h)
        simp only [charListLe, hne, hne2, Bool.false_eq_true, if_false]
        rcases lt_trichotomy a b with h1 | h1 | h1
        · exact Or.inl (decide_eq_true h1)
        · exact absurd h1 h
        · exact Or.inr (decide_eq_true h1)

/-- `charListLe` is transitive. -/
theorem charListLe_trans : ∀ (as bs cs : List Char),
    charListLe as bs = true → charListLe bs cs = true → charListLe as cs = true := by
  intro as
  induction as with
  | nil => intro bs cs _ _; rfl
  | cons a as2 ih =>
    intro bs cs h1 h2
    match bs, cs with
    | [], _ => exact absurd h1 (by simp [charListLe])
    | _ :: _, [] => exact absurd h2 (by simp [charListLe])
    | b :: bs2, c :: cs2 =>
      by_cases hab : a = b
      · subst hab
        simp only [charListLe, beq_self_eq_true, if_true] at h1
        by_cases hbc : a = c
        · subst hbc
          simp only [charListLe, beq_self_eq_true, if_true] at h2 ⊢
          exact ih bs2 cs2 h1 h2
        · have hne : (a == c) = false := beq_eq_false_iff_ne.mpr hbc
          simp only [charListLe, hne, Bool.false_eq_true, if_false] at h2 ⊢
          exact h2
      · have hne1 : (a == b) = false := beq_eq_false_iff_ne.mpr hab
        simp only [charListLe, hne1, Bool.false_eq_true, if_false,
          decide_eq_true_eq] at h1
        by_cases hbc : b = c
        · subst hbc
          have hne2 : (a == b) = false := beq_eq_false_iff_ne.mpr hab
          simp only [charListLe, hne2, Bool.false_eq_true, if_false,
            decide_eq_true_eq]
          exact h1
        · have hne2 : (b == c) = false := beq_eq_false_iff_ne.mpr hbc
          simp only [charListLe, hne2, Bool.false_eq_true, if_false,
            decide_eq_true_eq] at h2
          have hac : a < c := lt_trans h1 h2
          have hne3 : (a == c) = false := beq_eq_false_iff_ne.mpr (ne_of_lt hac)
          simp only [charListLe, hne3, Bool.false_eq_true, if_false,
            decide_eq_true_eq]
          exact hac

instance : IsTotal SearchResult relLE :=
  ⟨fun a b => charListLe_total a.relativePath.data b.relativePath.data⟩

instance : IsTrans SearchResult relLE :=
  ⟨fun a b c h1 h2 => charListLe_trans a.relativePath.data b.relativePath.data
    c.relativePath.data h1 h2⟩

/-- Adjacent-pair sortedness follows from pairwise sortedness. -/
theorem resultsSortedByRel_of_pairwise :
    ∀ (l : List SearchResult), l.Pairwise relLE → resultsSortedByRel l = true := by
  intro l
  induction l with
  | nil => intro _; rfl
  | cons a t ih =>
    intro hp
    match t, hp with
    | [], _ => rfl
    | b :: u, hp =>
      have h1 : relLE a b := (List.pairwise_cons.mp hp).1 b (List.mem_cons_self ..)
      have h2 := ih (List.pairwise_cons.mp hp).2
      have he : resultsSortedByRel (a :: b :: u)
          = (decide (relLE a b) && resultsSortedByRel (b :: u)) := rfl
      rw [he, decide_eq_true h1, h2]
      rfl

/-- C4 (amended): every completed scan-path (fallback) search returns its
result list sorted ascending by relative path — the explicit final sort; the
fast path returns the intersection order unsorted (see the counterexample). -/
theorem scan_path_result_sorted (corpus : List FileData) (ignored : String → Bool)
    (keywords : List String) (cs ww : Bool) (maxB : Nat) :
    resultsSortedByRel (searchKeywordsIntersection false corpus ignored
      keywords cs ww maxB) = true := by
  apply resultsSortedByRel_of_pairwise
  unfold searchKeywordsIntersection
  rw [if_neg (by simp)]
  exact List.sorted_insertionSort relLE _

/-! ## C8 -/

/-- Whatever the cancellation oracle does, the batch loop returns the
accumulator extended by the matches of some prefix of the queue (`splice`
hands out consecutive slices from the front). -/
theorem scanBatches_prefix (kws : List String) (cs ww : Bool) (maxB bs : Nat)
    (cancel : Nat → Bool) :
    ∀ (queue : List FileData) (step : Nat) (acc : List SearchResult),
    ∃ n, n ≤ queue.length ∧
      scanBatches kws cs ww maxB bs cancel queue step acc
        = acc ++ (queue.take n).filterMap
            (fun f => containsAllKeywords f kws cs ww maxB) := by
  intro queue step acc
  induction queue, step, acc using scanBatches.induct kws cs ww maxB bs cancel with
  | case1 step acc =>
    refine ⟨0, Nat.le_refl 0, ?_⟩
    simp [scanBatches]
  | case2 q qs step acc hc =>
    refine ⟨0, Nat.zero_le _, ?_⟩
    rw [scanBatches, if_pos hc]
    simp
  | case3 q qs step acc hc hbs =>
    refine ⟨0, Nat.zero_le _, ?_⟩
    rw [scanBatches, if_neg hc, if_pos hbs]
    simp
  | case4 q qs step acc hc batch hbs acc2 ih =>
    obtain ⟨n2, hn2, heq⟩ := ih
    refine ⟨min bs (q :: qs).length + n2, ?_, ?_⟩
    · simp only [List.length_drop] at hn2
      simp only [List.length_cons] at hn2 ⊢
      omega
    · rw [scanBatches, if_neg hc, if_neg hbs, heq, List.take_add,
        List.filterMap_append, List.append_assoc]
      have hdrop : (q :: qs).drop (min bs (q :: qs).length) = (q :: qs).drop bs := by
        rcases Nat.le_total bs (q :: qs).length with h | h
        · rw [Nat.min_eq_left h]
        · rw [Nat.min_eq_right h, List.drop_of_length_le h,
            List.drop_of_length_le (Nat.le_refl _)]
      have htake : (q :: qs).take (min bs (q :: qs).length) = (q :: qs).take bs := by
        rcases Nat.le_total bs (q :: qs).length with h | h
        · rw [Nat.min_eq_left h]
        · rw [Nat.min_eq_right h, List.take_of_length_le h,
            List.take_of_length_le (Nat.le_refl _)]
      rw [hdrop, htake]

/-- C8 (confirmed): a scan interrupted at any point by the cancellation
oracle still returns normally, with the matches of the files fully processed
before the signal was observed: a list that is a sublist of the full
uncancelled result set, of length at most the number of processed files.
The worker pool is modelled as the sequential batch loop; interleaving only
permutes how completed batches append their results, which touches none of
these properties. -/
theorem cancellation_returns_prefix (files : List FileData) (kws : List String)
    (cs ww : Bool) (maxB bs : Nat) (cancel : Nat → Bool) :
    ∃ n, n ≤ files.length ∧
      searchFilesInParallel files kws cs ww maxB bs cancel
        = (files.take n).filterMap (fun f => containsAllKeywords f kws cs ww maxB) ∧
      (searchFilesInParallel files kws cs ww maxB bs cancel).Sublist
        (files.filterMap (fun f => containsAllKeywords f kws cs ww maxB)) ∧
      (searchFilesInParallel files kws cs ww maxB bs cancel).length ≤ n := by
  obtain ⟨n, hn, heq⟩ := scanBatches_prefix kws cs ww maxB bs cancel files 0 []
  rw [List.nil_append] at heq
  refine ⟨n, hn, ?_, ?_, ?_⟩
  · unfold searchFilesInParallel
    exact heq
  · unfold searchFilesInParallel
    rw [heq]
    exact List.Sublist.filterMap _ (List.take_sublist n files)
  · unfold searchFilesInParallel
    rw [heq]
    calc ((files.take n).filterMap _).length ≤ (files.take n).length :=
        List.length_filterMap_le _ _
    _ ≤ n := by simp [List.length_take]

/-! ## C9 -/

/-- A successful map lookup exhibits the entry and its key. -/
theorem lookupMap_some_mem {α : Type} (m : List (String × α)) (p : String) (v : α)
    (h : lookupMap m p = some v) : (p, v) ∈ m := by
  unfold lookupMap at h
  cases hf : m.find? (fun e => e.fst == p) with
  | none => rw [hf] at h; simp at h
  | some e =>
    rw [hf] at h
    have h2 : e.snd = v := by simpa using h
    have hm := List.mem_of_find?_eq_some hf
    have hk := List.find?_some hf
    simp only [beq_iff_eq] at hk
    have : (p, v) = e := by
      cases e with
      | mk a b => simp_all
    rw [this]
    exact hm

/-- A key present in the map is found by lookup. -/
theorem lookupMap_isSome_of_mem {α : Type} (m : List (String × α)) (p : String)
    (h : p ∈ m.map Prod.fst) : ∃ v, lookupMap m p = some v := by
  obtain ⟨e, he, hfst⟩ := List.mem_map.mp h
  have : (m.find? (fun e2 => e2.fst == p)).isSome :=
    List.find?_isSome.mpr ⟨e, he, by simp [hfst]⟩
  cases hf : m.find? (fun e2 => e2.fst == p) with
  | none => rw [hf] at this; simp at this
  | some e2 => exact ⟨e2.snd, by unfold lookupMap; rw [hf]; rfl⟩

/-- C9 (confirmed): with a well-formed index (`totalFiles` equal to the file
map's size, duplicate-free keys) and a deduplicated candidate list, the
staleness check returns `false` exactly when the candidate set coincides
with the indexed set (as a permutation of the key list) and every candidate's
on-disk mtime matches the stored one; any new file, removed file, count
change or mtime change yields `true`.  The check is a pure function of the
index and the file-system snapshot, so two consecutive calls with no change
agree, and a missing index is always stale. -/
theorem isIndexOutdated_false_iff (idx : SearchIndex) (current : List String)
    (fsMtime : String → Option Nat) (hndC : current.Nodup)
    (hwf : idx.totalFiles = idx.files.length) :
    (isIndexOutdated (some idx) current fsMtime = false ↔
      (current.Perm (idx.files.map Prod.fst) ∧
       ∀ p ∈ current, ∀ fi, lookupMap idx.files p = some fi →
         fsMtime p = some fi.lastModified)) ∧
    isIndexOutdated (some idx) current fsMtime
      = isIndexOutdated (some idx) current fsMtime ∧
    isIndexOutdated none current fsMtime = true := by
  refine ⟨?_, rfl, rfl⟩
  show (if current.length = idx.totalFiles then
      current.any (fun p =>
        match lookupMap idx.files p with
        | none => true
        | some fi =>
          match fsMtime p with
          | none => true
          | some mt => mt != fi.lastModified)
    else true) = false ↔ _
  by_cases hlen : current.length = idx.totalFiles
  · rw [if_pos hlen]
    constructor
    · intro hany
      rw [List.any_eq_false] at hany
      have hsub : current ⊆ idx.files.map Prod.fst := by
        intro p hp
        have hfalse := hany p hp
        cases hl : lookupMap idx.files p with
        | none => rw [hl] at hfalse; simp at hfalse
        | some fi =>
          exact List.mem_map.mpr ⟨(p, fi), lookupMap_some_mem _ _ _ hl, rfl⟩
      have hperm : current.Perm (idx.files.map Prod.fst) := by
        apply (hndC.subperm hsub).perm_of_length_le
        rw [List.length_map]
        omega
      refine ⟨hperm, ?_⟩
      intro p hp fi hfi
      have hfalse := hany p hp
      rw [hfi] at hfalse
      cases hm : fsMtime p with
      | none => rw [hm] at hfalse; simp at hfalse
      | some mt =>
        rw [hm] at hfalse
        simp only [Bool.not_eq_true, bne_eq_false_iff_eq] at hfalse
        rw [hfalse]
    · rintro ⟨hperm, hmt⟩
      rw [List.any_eq_false]
      intro p hp
      have hk : p ∈ idx.files.map Prod.fst := hperm.mem_iff.mp hp
      obtain ⟨v, hv⟩ := lookupMap_isSome_of_mem _ _ hk
      rw [hv, hmt p hp v hv]
      simp
  · rw [if_neg hlen]
    simp only [Bool.true_eq_false, false_iff]
    rintro ⟨hperm, _⟩
    exact hlen (by rw [hperm.length_eq, List.length_map, hwf])

/-- Witness for C9: a one-file index matching the candidate list. -/
theorem isIndexOutdated_false_iff_witness :
    ((["/w/a.txt"] : List String).Nodup ∧
      (SearchIndex.mk "1.0.0" 0 0
        [("/w/a.txt", FileIndex.mk "/w/a.txt" "a.txt" 5 11 ".txt" ["alpha"] ["alpha"] "utf8")]
        [("alpha", ["/w/a.txt"])] 1 1).totalFiles = 1) ∧
    (isIndexOutdated
        (some (SearchIndex.mk "1.0.0" 0 0
          [("/w/a.txt", FileIndex.mk "/w/a.txt" "a.txt" 5 11 ".txt" ["alpha"] ["alpha"] "utf8")]
          [("alpha", ["/w/a.txt"])] 1 1))
        ["/w/a.txt"] (fun p => if p == "/w/a.txt" then some 5 else none) = false ↔
      ((["/w/a.txt"] : List String).Perm
        ([("/w/a.txt", FileIndex.mk "/w/a.txt" "a.txt" 5 11 ".txt" ["alpha"] ["alpha"] "utf8")].map
          Prod.fst) ∧
       ∀ p ∈ (["/w/a.txt"] : List String), ∀ fi,
         lookupMap [("/w/a.txt", FileIndex.mk "/w/a.txt" "a.txt" 5 11 ".txt" ["alpha"] ["alpha"] "utf8")] p
           = some fi →
         (fun p2 => if p2 == "/w/a.txt" then some 5 else none) p = some fi.lastModified)) :=
  ⟨⟨by decide, by decide⟩,
   ((isIndexOutdated_false_iff
      (SearchIndex.mk "1.0.0" 0 0
        [("/w/a.txt", FileIndex.mk "/w/a.txt" "a.txt" 5 11 ".txt" ["alpha"] ["alpha"] "utf8")]
        [("alpha", ["/w/a.txt"])] 1 1)
      ["/w/a.txt"] (fun p => if p == "/w/a.txt" then some 5 else none)
      (by decide) (by decide)).1)⟩

/-! ## C10 -/

/-- Parsing a serialized string array recovers the list. -/
theorem parseStrList_jstr (l : List String) :
    parseStrList (l.map JVal.jstr) = some l := by
  induction l with
  | nil => rfl
  | cons a t ih => simp [parseStrList, ih]

/-- Parsing a serialized string array (via `jAsStrArr`) recovers the list. -/
theorem jAsStrArr_jstr (l : List String) :
    jAsStrArr (some (JVal.jarr (l.map JVal.jstr))) = some l := by
  simp [jAsStrArr, parseStrList_jstr]

/-- One `FileIndex` entry survives the serialize/parse round trip. -/
theorem parseFileIndex_serializeFileIndex (fi : FileIndex) :
    parseFileIndex (serializeFileIndex fi) = some fi := by
  simp [parseFileIndex, serializeFileIndex, jGet, lookupMap, jAsStr, jAsNum,
    jAsStrArr, parseStrList_jstr]

/-- The file-map entry list survives the round trip. -/
theorem parseFilesEntries_roundtrip (files : List (String × FileIndex)) :
    parseFilesEntries (files.map (fun e => (e.fst, serializeFileIndex e.snd)))
      = some files := by
  induction files with
  | nil => rfl
  | cons e t ih => simp [parseFilesEntries, parseFileIndex_serializeFileIndex, ih]

/-- The inverted-map entry list survives the round trip. -/
theorem parseW2FEntries_roundtrip (l : List (String × List String)) :
    parseW2FEntries (l.map (fun e => (e.fst, JVal.jarr (e.snd.map JVal.jstr))))
      = some l := by
  induction l with
  | nil => rfl
  | cons e t ih => simp [parseW2FEntries, jAsStrArr_jstr, ih]

/-- C10 (confirmed): index persistence round-trips: deserializing the
serialized document reconstructs the index exactly — same version and
timestamps, same totals, the same file map (each entry with its words set
and full line array), and the same word-to-paths map. -/
theorem loadIndex_saveIndex (idx : SearchIndex) :
    loadIndex (saveIndex idx) = some idx := by
  simp [loadIndex, saveIndex, jGet, lookupMap, jAsStr, jAsNum,
    parseFilesEntries_roundtrip, parseW2FEntries_roundtrip]

/-! ## C2: supporting lemmas -/

/-- A successful whole-word scan step is a whole-word match. -/
theorem wwFindAux_some (needle hay : List Char) :
    ∀ (suffix : List Char) (base i : Nat),
    wwFindAux needle hay suffix base = some i → wwMatchAt needle hay i = true := by
  intro suffix
  induction suffix with
  | nil =>
    intro base i h
    simp only [wwFindAux] at h
    by_cases hm : wwMatchAt needle hay base
    · rw [if_pos hm] at h; injection h with h; exact h ▸ hm
    · rw [if_neg hm] at h; exact absurd h (by simp)
  | cons c t ih =>
    intro base i h
    simp only [wwFindAux] at h
    by_cases hm : wwMatchAt needle hay base
    · rw [if_pos hm] at h; injection h with h; exact h ▸ hm
    · rw [if_neg hm] at h; exact ih (base + 1) i h

/-- The success of `indexOf` does not depend on the base offset. -/
theorem indexOfAux_isSome_base (needle : List Char) :
    ∀ (hay : List Char) (b b2 : Nat),
    (indexOfAux needle hay b).isSome = (indexOfAux needle hay b2).isSome := by
  intro hay
  induction hay with
  | nil =>
    intro b b2
    by_cases he : needle.isEmpty <;> simp [indexOfAux, he]
  | cons c t ih =>
    intro b b2
    simp only [indexOfAux]
    by_cases hp : needle.isPrefixOf (c :: t)
    · rw [if_pos hp, if_pos hp]
      rfl
    · rw [if_neg hp, if_neg hp]
      exact ih (b + 1) (b2 + 1)

/-- `includes` holds whenever the needle occurs as a prefix of some suffix. -/
theorem strContains_of_prefix_drop (needle : List Char) :
    ∀ (hay : List Char) (i : Nat), needle.isPrefixOf (hay.drop i) = true →
    strContains hay needle = true := by
  intro hay
  induction hay with
  | nil =>
    intro i h
    rw [List.drop_nil] at h
    have : needle = [] := by
      cases needle with
      | nil => rfl
      | cons a t => simp [List.isPrefixOf] at h
    subst this
    rfl
  | cons c t ih =>
    intro i h
    match i with
    | 0 =>
      rw [List.drop_zero] at h
      simp only [strContains, indexOfAux, h, if_true, Option.isSome_some]
    | j + 1 =>
      rw [List.drop_succ_cons] at h
      have ht := ih j h
      simp only [strContains, indexOfAux]
      by_cases hp : needle.isPrefixOf (c :: t)
      · rw [if_pos hp]; rfl
      · rw [if_neg hp]
        rw [strContains] at ht
        rw [indexOfAux_isSome_base needle t 1 0]
        exact ht

/-- A whole-word containment implies plain substring containment. -/
theorem strContains_of_wwContains (hay needle : List Char)
    (h : wwContains hay needle = true) : strContains hay needle = true := by
  unfold wwContains at h
  cases hf : wwFindAux needle hay hay 0 with
  | none => rw [hf] at h; simp at h
  | some i =>
    have hm := wwFindAux_some needle hay hay 0 i hf
    unfold wwMatchAt at hm
    simp only [Bool.and_eq_true] at hm
    exact strContains_of_prefix_drop needle hay i hm.1.1

/-- The containment test of the fast path's re-match subsumes the whole-word
test: a keyword contained as a whole word is contained as a substring. -/
theorem hasKeywordIn_of_ww (content k : String) (cs ww : Bool)
    (h : hasKeywordIn content k cs ww = true) :
    hasKeywordIn content k cs false = true := by
  cases ww with
  | false => exact h
  | true =>
    unfold hasKeywordIn at h ⊢
    simp only at h ⊢
    exact strContains_of_wwContains _ _ h

/-- A successful stream read returns the concatenation of all chunks and its
line split. -/
theorem readStreamGo_ok (maxB : Nat) :
    ∀ (chunks : List String) (total : Nat) (acc : List String)
      (c : String) (ls : List String),
    readStreamGo maxB chunks total acc = Except.ok (c, ls) →
    c = String.join (acc.reverse ++ chunks) ∧ ls = splitLines c := by
  intro chunks
  induction chunks with
  | nil =>
    intro total acc c ls h
    simp only [readStreamGo, List.append_nil] at h ⊢
    injection h with h
    injection h with h1 h2
    exact ⟨h1.symm, by rw [← h1, ← h2]⟩
  | cons ch rest ih =>
    intro total acc c ls h
    simp only [readStreamGo] at h
    by_cases hsz : total + ch.utf8ByteSize > maxB
    · rw [if_pos hsz] at h; exact absurd h (by simp)
    · rw [if_neg hsz] at h
      have := ih (total + ch.utf8ByteSize) (ch :: acc) c ls h
      rw [List.reverse_cons, List.append_assoc] at this
      simpa using this

/-- `readFileWithStream` can only succeed with the full joined content. -/
theorem readFileWithStream_ok (chunks : List String) (maxB : Nat)
    (c : String) (ls : List String)
    (h : readFileWithStream chunks maxB = Except.ok (c, ls)) :
    c = String.join chunks ∧ ls = splitLines c := by
  have := readStreamGo_ok maxB chunks 0 [] c ls h
  simpa using this

/-- Every keyword accepted by the matcher loop passes the containment test. -/
theorem collectMatches_all (content : String) (lines : List String)
    (cs ww : Bool) :
    ∀ (kws : List String) (ms : List KeywordMatch),
    collectMatches content lines cs ww kws = some ms →
    ∀ k ∈ kws, hasKeywordIn content k cs ww = true := by
  intro kws
  induction kws with
  | nil => intro ms _ k hk; exact absurd hk (by simp)
  | cons k0 rest ih =>
    intro ms h k hk
    simp only [collectMatches] at h
    by_cases hc : hasKeywordIn content k0 cs ww
    · rw [if_pos hc] at h
      rcases List.mem_cons.mp hk with he | he
      · exact he ▸ hc
      · cases hr : collectMatches content lines cs ww rest with
        | none => rw [hr] at h; exact absurd h (by simp)
        | some ms2 => exact ih ms2 hr k he
    · rw [if_neg hc] at h; exact absurd h (by simp)

/-- A file accepted by `containsAllKeywords` contains every keyword of the
query as a plain (case-adjusted) substring of its full text — exactly what
the spec-modelled subprocess reports. -/
theorem containsAllKeywords_substring (f : FileData) (keywords : List String)
    (cs ww : Bool) (maxB : Nat) (r : SearchResult)
    (h : containsAllKeywords f keywords cs ww maxB = some r) :
    ∀ k ∈ keywords, hasKeywordIn f.content k cs false = true := by
  unfold containsAllKeywords at h
  by_cases h1 : f.size > maxB
  · rw [if_pos h1] at h; exact absurd h (by simp)
  · rw [if_neg h1] at h
    by_cases h2 : f.size > largeFileThreshold ∧
        ¬ containsKeywordsStream f.chunks keywords cs
    · rw [if_pos h2] at h; exact absurd h (by simp)
    · rw [if_neg h2] at h
      unfold containsAllKeywordsRead at h
      cases hr : readFileWithStream f.chunks maxB with
      | error e => rw [hr] at h; exact absurd h (by simp)
      | ok cl =>
        obtain ⟨content, lines⟩ := cl
        rw [hr] at h
        obtain ⟨hc, -⟩ := readFileWithStream_ok f.chunks maxB content lines hr
        dsimp only at h
        cases hm : collectMatches content lines cs ww keywords with
        | none => rw [hm] at h; exact absurd h (by simp)
        | some ms =>
          intro k hk
          have hx := collectMatches_all content lines cs ww keywords ms hm k hk
          rw [hc] at hx
          exact hasKeywordIn_of_ww _ _ _ _ hx

/-- Membership of a corpus file's path in a filtered path list is exactly the
filter predicate (paths are unique). -/
theorem mem_path_filter (corpus : List FileData)
    (hnd : (corpus.map FileData.filePath).Nodup) (B : FileData → Bool)
    (f : FileData) (hf : f ∈ corpus) :
    f.filePath ∈ (corpus.filter B).map FileData.filePath ↔ B f = true := by
  constructor
  · intro h
    obtain ⟨f2, hf2, hp⟩ := List.mem_map.mp h
    obtain ⟨hf2c, hB⟩ := List.mem_filter.mp hf2
    have : f2 = f := List.inj_on_of_nodup_map hnd hf2c hf hp
    exact this ▸ hB
  · intro hB
    exact List.mem_map.mpr ⟨f, List.mem_filter.mpr ⟨hf, hB⟩, rfl⟩

/-- One intersection step of the fast path: filtering a filtered path list by
membership in a per-keyword candidate list conjoins the predicates. -/
theorem path_filter_step (corpus : List FileData)
    (hnd : (corpus.map FileData.filePath).Nodup) (A B : FileData → Bool) :
    ((corpus.filter A).map FileData.filePath).filter
        (fun p => ((corpus.filter B).map FileData.filePath).contains p)
      = (corpus.filter (fun f => A f && B f)).map FileData.filePath := by
  rw [List.filter_map, List.filter_filter]
  have hc : ∀ f ∈ corpus,
      (((fun p => ((corpus.filter B).map FileData.filePath).contains p) ∘
        FileData.filePath) f && A f) = (A f && B f) := by
    intro f hf
    have hm := mem_path_filter corpus hnd B f hf
    by_cases hB : B f
    · have : f.filePath ∈ (corpus.filter B).map FileData.filePath := hm.mpr hB
      simp [this, hB]
    · have : ¬ f.filePath ∈ (corpus.filter B).map FileData.filePath := by
        intro hx
        exact hB (hm.mp hx)
      simp [this, hB]
  rw [List.filter_congr hc]

/-- The whole per-keyword intersection fold of the fast path: starting from
the first keyword's candidates, the surviving paths are exactly those of the
files containing every processed keyword. -/
theorem inter_foldl (corpus : List FileData)
    (hnd : (corpus.map FileData.filePath).Nodup) (cs : Bool) :
    ∀ (ks : List String) (A : FileData → Bool),
    ks.foldl (fun acc k => acc.filter
        (fun p => (ripgrepFiles corpus k cs).contains p))
      ((corpus.filter A).map FileData.filePath)
    = (corpus.filter (fun f => A f &&
        ks.all (fun k => hasKeywordIn f.content k cs false))).map FileData.filePath := by
  intro ks
  induction ks with
  | nil =>
    intro A
    simp only [List.foldl_nil, List.all_nil, Bool.and_true]
  | cons k rest ih =>
    intro A
    simp only [List.foldl_cons]
    rw [show ripgrepFiles corpus k cs
        = (corpus.filter (fun f => hasKeywordIn f.content k cs false)).map
            FileData.filePath from rfl] at *
    rw [path_filter_step corpus hnd A (fun f => hasKeywordIn f.content k cs false)]
    rw [ih (fun f => A f && hasKeywordIn f.content k cs false)]
    apply congrArg
    apply List.filter_congr
    intro f _
    simp [Bool.and_assoc]

/-- `filterMap` only depends on the function's values on the list. -/
theorem filterMap_congr_mem {α β : Type} (l : List α) (g1 g2 : α → Option β)
    (h : ∀ x ∈ l, g1 x = g2 x) : l.filterMap g1 = l.filterMap g2 := by
  induction l with
  | nil => rfl
  | cons a t ih =>
    simp only [List.filterMap_cons, h a (List.mem_cons_self ..)]
    cases g2 a with
    | none => exact ih (fun x hx => h x (List.mem_cons_of_mem _ hx))
    | some b => rw [ih (fun x hx => h x (List.mem_cons_of_mem _ hx))]

/-- Pre-filtering by a predicate that holds on the whole support of a
`filterMap` does not change its result. -/
theorem filter_filterMap_support {α β : Type} (l : List α) (P : α → Bool)
    (F : α → Option β) (h : ∀ x ∈ l, F x ≠ none → P x = true) :
    (l.filter P).filterMap F = l.filterMap F := by
  induction l with
  | nil => rfl
  | cons a t ih =>
    have ht := ih (fun x hx => h x (List.mem_cons_of_mem _ hx))
    by_cases hP : P a
    · rw [List.filter_cons_of_pos hP, List.filterMap_cons, List.filterMap_cons]
      cases F a with
      | none => exact ht
      | some b => rw [ht]
    · rw [List.filter_cons_of_neg hP]
      have hFa : F a = none := by
        by_contra hne
        exact hP (h a (List.mem_cons_self ..) hne)
      rw [List.filterMap_cons, hFa, ht]

/-- The corpus entry found for a corpus file's own path is that file. -/
theorem find?_self (corpus : List FileData)
    (hnd : (corpus.map FileData.filePath).Nodup) (f : FileData) (hf : f ∈ corpus) :
    corpus.find? (fun f2 => f2.filePath == f.filePath) = some f := by
  cases hq : corpus.find? (fun f2 => f2.filePath == f.filePath) with
  | none =>
    have hsome : (corpus.find? (fun f2 => f2.filePath == f.filePath)).isSome :=
      List.find?_isSome.mpr ⟨f, hf, by simp⟩
    rw [hq] at hsome
    simp at hsome
  | some f2 =>
    have hmem := List.mem_of_find?_eq_some hq
    have hkey := List.find?_some hq
    simp only [beq_iff_eq] at hkey
    rw [List.inj_on_of_nodup_map hnd hmem hf hkey]

/-! ## C2 -/

/-- C2 (confirmed): on the same candidate corpus, the fast path — one
spec-modelled subprocess containment query per (deduplicated) keyword, path
set intersection, then a full re-match of every surviving file — produces
exactly the scan path's final result set (the sorted scan results are a
permutation of the fast path's list).  Whole-word mode is safe because the
substring pre-filter over-approximates whole-word containment and the
re-match applies the real flag; the containment subprocess is modelled from
the spec's interface, under which keywords are plain text, not patterns. -/
theorem fast_path_equals_scan_path (corpus : List FileData)
    (ignored : String → Bool) (keywords : List String) (cs ww : Bool) (maxB : Nat)
    (hkw : keywords ≠ [])
    (hig : ∀ f ∈ corpus, ignored f.filePath = false)
    (hnd : (corpus.map FileData.filePath).Nodup) :
    (tryRipgrepSearch corpus ignored keywords cs ww maxB).Perm
      (sortResults (scanFilesNoCancel corpus keywords cs ww maxB)) := by
  have hmain : tryRipgrepSearch corpus ignored keywords cs ww maxB
      = scanFilesNoCancel corpus keywords cs ww maxB := by
    unfold tryRipgrepSearch
    cases hd : keywords.dedup with
    | nil => exact absurd ((List.dedup_eq_nil keywords).mp hd) hkw
    | cons k0 rest =>
      dsimp only
      have hinter := inter_foldl corpus hnd cs rest
        (fun f => hasKeywordIn f.content k0 cs false)
      rw [show ripgrepFiles corpus k0 cs
          = (corpus.filter (fun f => hasKeywordIn f.content k0 cs false)).map
              FileData.filePath from rfl, hinter]
      rw [List.filterMap_map]
      have hpt : ∀ f ∈ corpus.filter (fun f => hasKeywordIn f.content k0 cs false &&
          rest.all (fun k => hasKeywordIn f.content k cs false)),
          ((fun p =>
            match corpus.find? (fun f2 => f2.filePath == p) with
            | none => none
            | some f2 =>
              if ignored f2.filePath then none
              else containsAllKeywords f2 keywords cs ww maxB) ∘ FileData.filePath) f
          = containsAllKeywords f keywords cs ww maxB := by
        intro f hf
        have hfc : f ∈ corpus := (List.mem_filter.mp hf).1
        simp only [Function.comp]
        rw [find?_self corpus hnd f hfc]
        simp [hig f hfc]
      rw [filterMap_congr_mem _ _ _ hpt]
      apply filter_filterMap_support
      intro f hfc hFne
      cases hF : containsAllKeywords f keywords cs ww maxB with
      | none => exact absurd hF hFne
      | some r =>
        have hsub := containsAllKeywords_substring f keywords cs ww maxB r hF
        have hall : ∀ k ∈ keywords.dedup, hasKeywordIn f.content k cs false = true :=
          fun k hk => hsub k (List.mem_dedup.mp hk)
        rw [hd] at hall
        simp only [Bool.and_eq_true, List.all_eq_true]
        exact ⟨hall k0 (List.mem_cons_self ..),
          fun k hk => hall k (List.mem_cons_of_mem _ hk)⟩
  rw [hmain]
  exact (List.perm_insertionSort relLE _).symm

/-- Witness for C2: a three-file corpus (spec section 8's scenario) where
only the file containing both keywords survives on both paths. -/
theorem fast_path_equals_scan_path_witness :
    ((["alpha", "beta"] : List String) ≠ [] ∧
      (∀ f ∈ [FileData.mk "/w/A" "A" "" 10 0 ["alpha beta"],
              FileData.mk "/w/B" "B" "" 10 0 ["alpha only"],
              FileData.mk "/w/C" "C" "" 9 0 ["beta only"]],
        (fun _ => false : String → Bool) f.filePath = false) ∧
      (([FileData.mk "/w/A" "A" "" 10 0 ["alpha beta"],
         FileData.mk "/w/B" "B" "" 10 0 ["alpha only"],
         FileData.mk "/w/C" "C" "" 9 0 ["beta only"]].map FileData.filePath).Nodup)) ∧
    (tryRipgrepSearch
        [FileData.mk "/w/A" "A" "" 10 0 ["alpha beta"],
         FileData.mk "/w/B" "B" "" 10 0 ["alpha only"],
         FileData.mk "/w/C" "C" "" 9 0 ["beta only"]]
        (fun _ => false) ["alpha", "beta"] false false 1048576).Perm
      (sortResults (scanFilesNoCancel
        [FileData.mk "/w/A" "A" "" 10 0 ["alpha beta"],
         FileData.mk "/w/B" "B" "" 10 0 ["alpha only"],
         FileData.mk "/w/C" "C" "" 9 0 ["beta only"]]
        ["alpha", "beta"] false false 1048576)) :=
  ⟨⟨by decide, by decide, by decide⟩,
   fast_path_equals_scan_path
     [FileData.mk "/w/A" "A" "" 10 0 ["alpha beta"],
      FileData.mk "/w/B" "B" "" 10 0 ["alpha only"],
      FileData.mk "/w/C" "C" "" 9 0 ["beta only"]]
     (fun _ => false) ["alpha", "beta"] false false 1048576
     (by decide) (by decide) (by decide)⟩

/-! ## C3: supporting lemmas -/

/-- The empty needle is contained everywhere. -/
theorem strContains_nil_needle (hay : List Char) : strContains hay [] = true := by
  cases hay with
  | nil => rfl
  | cons c t => simp [strContains, indexOfAux, List.isPrefixOf]

/-- `includes` exhibits an occurrence: the needle is a prefix of some
suffix. -/
theorem strContains_exists_prefix (ndl : List Char) :
    ∀ (hay : List Char), strContains hay ndl = true →
    ∃ i, ndl.isPrefixOf (hay.drop i) = true := by
  intro hay
  induction hay with
  | nil =>
    intro h
    simp only [strContains, indexOfAux] at h
    by_cases he : ndl.isEmpty
    · refine ⟨0, ?_⟩
      rw [List.drop_nil]
      cases ndl with
      | nil => rfl
      | cons a t => simp at he
    · rw [if_neg he] at h; simp at h
  | cons c t ih =>
    intro h
    simp only [strContains, indexOfAux] at h
    by_cases hp : ndl.isPrefixOf (c :: t)
    · exact ⟨0, by rw [List.drop_zero]; exact hp⟩
    · rw [if_neg hp] at h
      rw [show ((indexOfAux ndl t 1).isSome = true)
          = ((indexOfAux ndl t 0).isSome = true) from by
        rw [indexOfAux_isSome_base ndl t 1 0]] at h
      obtain ⟨i, hi⟩ := ih h
      exact ⟨i + 1, by rw [List.drop_succ_cons]; exact hi⟩

/-- Containment in a middle segment gives containment in the whole list. -/
theorem strContains_append_of (pre l post ndl : List Char)
    (h : strContains l ndl = true) :
    strContains (pre ++ l ++ post) ndl = true := by
  cases hn : ndl with
  | nil => exact strContains_nil_needle _
  | cons a nt =>
    rw [← hn]
    obtain ⟨i, hi⟩ := strContains_exists_prefix ndl l h
    have hle : i ≤ l.length := by
      by_contra hgt
      rw [List.drop_eq_nil_of_le (by omega)] at hi
      rw [hn] at hi
      simp [List.isPrefixOf] at hi
    have h2 : ndl.isPrefixOf ((l ++ post).drop i) = true := by
      rw [List.drop_append_of_le_length hle]
      rw [List.isPrefixOf_iff_prefix] at hi ⊢
      exact hi.trans (List.prefix_append _ _)
    apply strContains_of_prefix_drop ndl (pre ++ l ++ post) (pre.length + i)
    rw [List.append_assoc, List.drop_append]
    exact h2

/-- Every line produced by the split loop is a segment of the input. -/
theorem splitLinesAux_decomp :
    ∀ (s cur l : List Char), l ∈ splitLinesAux s cur →
    ∃ pre post, cur.reverse ++ s = pre ++ l ++ post := by
  intro s
  induction s with
  | nil =>
    intro cur l hl
    simp only [splitLinesAux, List.mem_cons, List.not_mem_nil, or_false] at hl
    exact ⟨[], [], by simp [hl]⟩
  | cons c t ih =>
    intro cur l hl
    simp only [splitLinesAux] at hl
    by_cases hc : c == '\n'
    · rw [if_pos hc] at hl
      have hceq : c = '\n' := by simpa using hc
      rcases List.mem_cons.mp hl with he | he
      · exact ⟨[], c :: t, by simp [he]⟩
      · obtain ⟨pre, post, hp⟩ := ih [] l he
        simp only [List.reverse_nil, List.nil_append] at hp
        exact ⟨cur.reverse ++ [c] ++ pre, post, by
          simp only [List.append_assoc, List.cons_append, List.nil_append] at hp ⊢
          rw [hp]⟩
    · rw [if_neg hc] at hl
      obtain ⟨pre, post, hp⟩ := ih (c :: cur) l hl
      simp only [List.reverse_cons, List.append_assoc, List.cons_append,
        List.nil_append] at hp
      exact ⟨pre, post, by
        simp only [List.append_assoc, List.cons_append]
        rw [← hp]⟩

/-- Every line of `split('\n')` is a segment of the content. -/
theorem splitLines_decomp (s : String) (line : String)
    (h : line ∈ splitLines s) :
    ∃ pre post, s.data = pre ++ line.data ++ post := by
  obtain ⟨l, hl, he⟩ := List.mem_map.mp h
  obtain ⟨pre, post, hp⟩ := splitLinesAux_decomp s.data [] l hl
  simp only [List.reverse_nil, List.nil_append] at hp
  exact ⟨pre, post, by rw [hp, ← he]⟩

/-- A non-empty substring-mode position list for a keyword exhibits a line
containing the (case-adjusted) keyword. -/
theorem findKeywordPositions_line_contains (lines : List String) (k : String)
    (cs : Bool) (h : findKeywordPositions lines k cs false ≠ []) :
    ∃ line ∈ lines,
      strContains (if cs then line.data else (lowerStr line).data)
        (if cs then k.data else (lowerStr k).data) = true := by
  unfold findKeywordPositions at h
  rw [ne_eq, List.flatten_eq_nil_iff] at h
  push_neg at h
  obtain ⟨x, hx, hne⟩ := h
  obtain ⟨p, hp, hpe⟩ := List.mem_map.mp hx
  refine ⟨p.snd, List.snd_mem_of_mem_enum hp, ?_⟩
  rw [← hpe] at hne
  simp only [Bool.false_eq_true, if_false] at hne
  have hcols : subScan (if cs then k.data else (lowerStr k).data)
      (if cs then p.snd.data else (lowerStr p.snd).data) 0
      ((if cs then p.snd.data else (lowerStr p.snd).data).length + 1) ≠ [] := by
    intro hz
    rw [hz] at hne
    simp at hne
  rw [subScan] at hcols
  cases hio : indexOfFrom (if cs then k.data else (lowerStr k).data)
      (if cs then p.snd.data else (lowerStr p.snd).data) 0 with
  | none => rw [hio] at hcols; simp at hcols
  | some i =>
    unfold indexOfFrom at hio
    rw [List.drop_zero] at hio
    unfold strContains
    rw [hio]
    rfl

/-- A keyword with positions on some line of the split content passes the
substring containment test against the whole content. -/
theorem hasKeywordIn_of_positions (content : String) (k : String) (cs : Bool)
    (h : findKeywordPositions (splitLines content) k cs false ≠ []) :
    hasKeywordIn content k cs false = true := by
  obtain ⟨line, hline, hc⟩ := findKeywordPositions_line_contains _ k cs h
  obtain ⟨pre, post, hdec⟩ := splitLines_decomp content line hline
  unfold hasKeywordIn
  cases cs with
  | true =>
    simp only at hc ⊢
    rw [hdec]
    exact strContains_append_of pre line.data post k.data hc
  | false =>
    simp only at hc ⊢
    have hld : (lowerStr content).data
        = pre.map Char.toLower ++ (lowerStr line).data ++ post.map Char.toLower := by
      show content.data.map Char.toLower = _
      rw [hdec]
      simp [lowerStr]
    rw [hld]
    exact strContains_append_of _ _ _ _ hc

/-- The index path's keyword loop agrees with the scan path's loop on the
same line data: positions are computed by the same function (whole-word off),
and non-empty positions on a line imply the scan path's containment test on
the joined content. -/
theorem collectIdx_to_collect (content : String) (lines : List String) (cs : Bool) :
    ∀ (kws : List String) (ms : List KeywordMatch),
    collectIdxMatches lines cs kws = some ms → lines = splitLines content →
    collectMatches content lines cs false kws = some ms := by
  intro kws
  induction kws with
  | nil =>
    intro ms h _
    simp only [collectIdxMatches] at h
    simp only [collectMatches]
    exact h
  | cons k rest ih =>
    intro ms h hls
    simp only [collectIdxMatches] at h
    by_cases hne : (findKeywordPositions lines k cs false).isEmpty
    · rw [if_pos hne] at h; exact absurd h (by simp)
    · rw [if_neg hne] at h
      cases hr : collectIdxMatches lines cs rest with
      | none => rw [hr] at h; exact absurd h (by simp)
      | some ms2 =>
        rw [hr] at h
        simp only [Option.map_some] at h
        have hkw : hasKeywordIn content k cs false = true := by
          apply hasKeywordIn_of_positions
          rw [← hls]
          intro hz
          rw [hz] at hne
          exact hne (by rfl)
        simp only [collectMatches, hkw, if_true]
        rw [ih ms2 hr hls]
        simp only [hne, Bool.false_eq_true, if_false]
        injection h with h
        rw [← h]

/-! ## C3 -/

/-- The C3 counterexample corpus file: its content contains `cat` only as a
substring of the token `concatenate`. -/
def c3File : FileData := ⟨"/w/a.txt", "a.txt", ".txt", 11, 5, ["concatenate"]⟩

/-- The C3 counterexample index: the current, faithful index of `c3File`
(its word set is `extractWords` of the content). -/
def c3Index : SearchIndex :=
  { version := "1.0.0"
    createdAt := 0
    updatedAt := 0
    files := [("/w/a.txt",
      { filePath := "/w/a.txt", relativePath := "a.txt", lastModified := 5,
        fileSize := 11, fileType := ".txt",
        words := extractWords "concatenate", lines := ["concatenate"],
        encoding := "utf8" })]
    wordToFiles := [("concatenate", ["/w/a.txt"])]
    totalFiles := 1
    totalWords := 1 }

/-- The file-system mtimes of the C3 counterexample (matching the index). -/
def c3Mtime : String → Option Nat := fun p =>
  if p == "/w/a.txt" then some 5 else none

/-- C3 (counterexample): over a current index (the staleness check returns
`false`), the query `cat` in substring mode returns nothing on the index path
— `cat` is not a word token of `concatenate`, so candidate discovery finds no
file — while the scan path returns the file. -/
theorem searchWithIndex_misses_substring :
    searchWithIndex c3Index c3Mtime ["cat"] false = [] ∧
    (scanFilesNoCancel [c3File] ["cat"] false false 1048576).map
      SearchResult.relativePath = ["a.txt"] ∧
    isIndexOutdated (some c3Index) ["/w/a.txt"] c3Mtime = false := by
  refine ⟨rfl, rfl, rfl⟩

/-- C3 (amended): whenever the index is current and faithful to the corpus
(every indexed entry backed by a corpus file with matching path, metadata,
mtime and cached line array) and every indexed file is at most the 100KB
streaming threshold (and the byte ceiling), every result the index path
returns in substring mode is also returned, identically, by the scan path —
the index path under-approximates the scan path.  The converse fails (see
the counterexample), and the 100KB bound cannot be dropped: above it even
the subset direction fails on duplicated keyword lists, because the scan
path's streaming pre-check wrongly rejects such files while the index path
runs no pre-check (see `searchWithIndex_not_subset_over_threshold`). -/
theorem searchWithIndex_subset_scan (index : SearchIndex)
    (fsMtime : String → Option Nat) (corpus : List FileData)
    (keywords : List String) (cs : Bool) (maxB : Nat)
    (hcons : ∀ e ∈ index.files, ∃ f, f ∈ corpus ∧
      e.snd.filePath = f.filePath ∧ e.snd.relativePath = f.relativePath ∧
      e.snd.fileType = f.fileType ∧ e.snd.fileSize = f.size ∧
      e.snd.lastModified = f.mtime ∧
      f.size ≤ largeFileThreshold ∧ f.size ≤ maxB ∧
      readFileWithStream f.chunks maxB = Except.ok (f.content, e.snd.lines)) :
    ∀ r ∈ searchWithIndex index fsMtime keywords cs,
      r ∈ scanFilesNoCancel corpus keywords cs false maxB := by
  intro r hr
  have hr2 : r ∈ (match interCandidates index
        (if cs then keywords else keywords.map lowerStr) none with
      | none => []
      | some c => c).filterMap (fun p =>
        match lookupMap index.files p with
        | none => none
        | some fi =>
          match fsMtime p with
          | none => none
          | some mt =>
            if mt = fi.lastModified then findKeywordMatchesIdx fi keywords cs
            else none) :=
    (List.perm_insertionSort relLE _).mem_iff.mp hr
  obtain ⟨p, hp, hG⟩ := List.mem_filterMap.mp hr2
  cases hl : lookupMap index.files p with
  | none => rw [hl] at hG; exact absurd hG (by simp)
  | some fi =>
    rw [hl] at hG
    cases hm : fsMtime p with
    | none => rw [hm] at hG; exact absurd hG (by simp)
    | some mt =>
      rw [hm] at hG
      dsimp only at hG
      by_cases hmt : mt = fi.lastModified
      · rw [if_pos hmt] at hG
        have hent := lookupMap_some_mem index.files p fi hl
        obtain ⟨f, hfc, hfip, hrel, hft, hfs, hlm, hth, hmb, hread⟩ :=
          hcons (p, fi) hent
        obtain ⟨-, hls⟩ :=
          readFileWithStream_ok f.chunks maxB f.content fi.lines hread
        unfold findKeywordMatchesIdx at hG
        cases hci : collectIdxMatches fi.lines cs keywords with
        | none => rw [hci] at hG; exact absurd hG (by simp)
        | some ms =>
          rw [hci] at hG
          dsimp only at hG
          by_cases hlen : (ms.length == keywords.length) = true
          · rw [if_pos hlen] at hG
            injection hG with hG
            have hcm : collectMatches f.content fi.lines cs false keywords
                = some ms :=
              collectIdx_to_collect f.content fi.lines cs keywords ms hci hls
            have hF : containsAllKeywords f keywords cs false maxB = some
                { filePath := f.filePath, relativePath := f.relativePath,
                  kwMatches := ms, fileSize := f.size,
                  preview := some (generateFilePreview fi.lines ms keywords),
                  lastModified := f.mtime, fileType := f.fileType } := by
              unfold containsAllKeywords
              rw [if_neg (by omega)]
              rw [if_neg (by rintro ⟨hgt, -⟩; omega)]
              unfold containsAllKeywordsRead
              rw [hread]
              dsimp only
              rw [hcm]
              dsimp only
              rw [if_pos hlen]
            apply List.mem_filterMap.mpr
            refine ⟨f, hfc, ?_⟩
            rw [hF, ← hG]
            simp only [Option.some.injEq, SearchResult.mk.injEq]
            exact ⟨hfip.symm, hrel.symm, trivial, hfs.symm, trivial, hlm.symm, hft.symm⟩
          · rw [if_neg hlen] at hG; exact absurd hG (by simp)
      · rw [if_neg hmt] at hG; exact absurd hG (by simp)

/-- Witness for C3's amended theorem: a one-file corpus whose index returns
the file, which the scan path also returns. -/
theorem searchWithIndex_subset_scan_witness :
    (∀ e ∈ (SearchIndex.mk "1.0.0" 0 0
        [("/w/b.txt", FileIndex.mk "/w/b.txt" "b.txt" 7 5 ".txt"
          ["alpha"] ["alpha"] "utf8")]
        [("alpha", ["/w/b.txt"])] 1 1).files,
      ∃ f, f ∈ [FileData.mk "/w/b.txt" "b.txt" ".txt" 5 7 ["alpha"]] ∧
        e.snd.filePath = f.filePath ∧ e.snd.relativePath = f.relativePath ∧
        e.snd.fileType = f.fileType ∧ e.snd.fileSize = f.size ∧
        e.snd.lastModified = f.mtime ∧
        f.size ≤ largeFileThreshold ∧ f.size ≤ 1048576 ∧
        readFileWithStream f.chunks 1048576
          = Except.ok (f.content, e.snd.lines)) ∧
    ∀ r ∈ searchWithIndex (SearchIndex.mk "1.0.0" 0 0
        [("/w/b.txt", FileIndex.mk "/w/b.txt" "b.txt" 7 5 ".txt"
          ["alpha"] ["alpha"] "utf8")]
        [("alpha", ["/w/b.txt"])] 1 1)
        (fun p => if p == "/w/b.txt" then some 7 else none) ["alpha"] false,
      r ∈ scanFilesNoCancel [FileData.mk "/w/b.txt" "b.txt" ".txt" 5 7 ["alpha"]]
        ["alpha"] false false 1048576 := by
  have hcons : ∀ e ∈ (SearchIndex.mk "1.0.0" 0 0
      [("/w/b.txt", FileIndex.mk "/w/b.txt" "b.txt" 7 5 ".txt"
        ["alpha"] ["alpha"] "utf8")]
      [("alpha", ["/w/b.txt"])] 1 1).files,
      ∃ f, f ∈ [FileData.mk "/w/b.txt" "b.txt" ".txt" 5 7 ["alpha"]] ∧
        e.snd.filePath = f.filePath ∧ e.snd.relativePath = f.relativePath ∧
        e.snd.fileType = f.fileType ∧ e.snd.fileSize = f.size ∧
        e.snd.lastModified = f.mtime ∧
        f.size ≤ largeFileThreshold ∧ f.size ≤ 1048576 ∧
        readFileWithStream f.chunks 1048576
          = Except.ok (f.content, e.snd.lines) := by
    intro e he
    simp only [List.mem_cons, List.not_mem_nil, or_false] at he
    subst he
    exact ⟨FileData.mk "/w/b.txt" "b.txt" ".txt" 5 7 ["alpha"],
      List.mem_cons_self .., rfl, rfl, rfl, rfl, rfl, by decide, by decide, rfl⟩
  exact ⟨hcons, searchWithIndex_subset_scan _ _ _ ["alpha"] false 1048576 hcons⟩

/-- The indexed entry of a >100KB file for the threshold-divergence theorem:
its cached data is faithful (`words` is `extractWords` of the content). -/
def c3LargeFi : FileIndex :=
  { filePath := "/w/big.txt", relativePath := "big.txt", lastModified := 5,
    fileSize := 102401, fileType := ".txt", words := extractWords "cat cat",
    lines := ["cat cat"], encoding := "utf8" }

/-- A current index over the >100KB file `big.txt`. -/
def c3LargeIndex : SearchIndex :=
  { version := "1.0.0", createdAt := 0, updatedAt := 0,
    files := [("/w/big.txt", c3LargeFi)],
    wordToFiles := [("cat", ["/w/big.txt"])],
    totalFiles := 1, totalWords := 1 }

/-- The file-system mtimes matching `c3LargeIndex`. -/
def c3LargeMtime : String → Option Nat := fun p =>
  if p == "/w/big.txt" then some 5 else none

/-- The 100KB bound of the amended C3 theorem is forced, not a convenience:
over a current index (staleness check false) of a file larger than the
streaming threshold, the duplicated keyword list `["cat", "cat"]` is answered
with the file by the index path (which runs no pre-check over its cached
lines), while the scan path returns nothing for that file whatever its chunk
stream, because its streaming pre-check can never accept a duplicated
keyword list (the C1 defect).  So above the threshold even the subset
direction of the two-engine equivalence fails. -/
theorem searchWithIndex_not_subset_over_threshold :
    (searchWithIndex c3LargeIndex c3LargeMtime ["cat", "cat"] false).map
      SearchResult.relativePath = ["big.txt"] ∧
    isIndexOutdated (some c3LargeIndex) ["/w/big.txt"] c3LargeMtime = false ∧
    ∀ (chunks : List String) (size maxB : Nat),
      largeFileThreshold < size → size ≤ maxB →
      scanFilesNoCancel [⟨"/w/big.txt", "big.txt", ".txt", size, 5, chunks⟩]
        ["cat", "cat"] false false maxB = [] := by
  refine ⟨rfl, rfl, ?_⟩
  intro chunks size maxB h1 h2
  have hstream : containsKeywordsStream chunks ["cat", "cat"] false = false := by
    unfold containsKeywordsStream
    apply streamGo_never_true
    · decide
    · exact List.nodup_nil
    · intro x hx; simp at hx
  have hnone : containsAllKeywords ⟨"/w/big.txt", "big.txt", ".txt", size, 5, chunks⟩
      ["cat", "cat"] false false maxB = none := by
    unfold containsAllKeywords
    rw [if_neg (by change ¬ size > maxB; omega)]
    rw [if_pos ⟨by change largeFileThreshold < size; omega, by simp [hstream]⟩]
  simp [scanFilesNoCancel, hnone]

end VsSearch
